import Mathlib

/-!
Verification of the distance-vector routing simulation (`src/main.rs`).

The binary crate consists of `main.rs` alone (it declares no `mod cost;` /
`mod repr;`, so `cost.rs` and `repr.rs` are an unused earlier revision);
accordingly every definition below is translated from `main.rs`.  The weight
type is instantiated at `u32` in the program; the scenarios only involve tiny
sums, so weights are embedded as `Nat`.

Determinization note: the source stores `relations` in a `std::collections::HashMap`
and builds each node's `inbox` and `connected` lists by iterating it, so their
order is unspecified.  The canonical embedding enumerates neighbors in
ascending index order (`neighborsOf`); where a claim depends on the order, an
order-parametrized variant (`neighborsOfWith`, `rebuildWith`, `stepWith`) makes
the enumeration order explicit.  Panicking operations (`Option::unwrap` on the
direct-cost lookups and vector indexing inside the round) are embedded with
`Option`: a `none` result of `run_simulation` corresponds to a panic.
-/

/-- DVValue from main.rs (lines 8-13): `Infinity | Distance(W, usize) | SameNode`.
The derived `PartialEq` there is structural equality, which `DecidableEq` mirrors. -/
inductive DVValue where
  | infinity : DVValue
  | distance : Nat → Nat → DVValue
  | sameNode : DVValue
deriving DecidableEq, Repr

/-- Cost abstraction (spec section 3 / `cost.rs`): `Zero < Value w < Infinity`.
Used in theorem statements to speak about the cost component of an entry. -/
inductive Cost where
  | zero : Cost
  | value : Nat → Cost
  | infinity : Cost
deriving DecidableEq, Repr

/-- Cost of a distance-vector entry: `SameNode ↦ Zero`, `Distance w _ ↦ Value w`,
`Infinity ↦ Infinity`. -/
def DVValue.cost : DVValue → Cost
  | .infinity => .infinity
  | .distance w _ => .value w
  | .sameNode => .zero

/-- Total order on costs: `Zero ≤ Value w ≤ Infinity`, values ordered by weight. -/
def Cost.le : Cost → Cost → Bool
  | .zero, _ => true
  | .value _, .zero => false
  | .value a, .value b => a ≤ b
  | .value _, .infinity => true
  | .infinity, .infinity => true
  | .infinity, _ => false

/-- Node from main.rs (lines 38-45): distance vector, inbox of neighbor vectors,
stable index, and connected `(neighbor, weight)` edges. -/
structure Node where
  name : String
  dv : List DVValue
  inbox : List (Nat × List DVValue)
  index : Nat
  connected : List (Nat × Nat)
deriving DecidableEq, Repr

/-- Operation from main.rs (lines 47-50). -/
inductive Operation where
  | changeWeight : Nat → Nat → Nat → Operation
deriving DecidableEq, Repr

/-- World from main.rs (lines 52-57).  The source keys `nodes` by name and keeps
a `node_names : BTreeMap<usize, String>`; node indices are assigned `0..n` at
construction and never change, so the embedding stores the nodes as a list in
index order (position `i` holds the node of index `i`). -/
structure World where
  nodes : List Node
  generation : Nat
deriving DecidableEq, Repr

/-- NewState from main.rs (lines 59-63). -/
inductive NewState where
  | changed : World → NewState
  | notChanged : NewState
deriving DecidableEq, Repr

/-- Loop body of `modify_dv` (main.rs lines 65-83): walk the vector with a
counter, replacing position `node_b` by `Distance(new_w, node_b)`. -/
def modifyDvGo (node_b new_w : Nat) : Nat → List DVValue → List DVValue
  | _, [] => []
  | index, v :: rest =>
      (if index = node_b then DVValue.distance new_w node_b else v) ::
        modifyDvGo node_b new_w (index + 1) rest

/-- modify_dv from main.rs (lines 65-83). -/
def modify_dv (original : List DVValue) (node_b : Nat) (new_w : Nat) : List DVValue :=
  modifyDvGo node_b new_w 0 original

/-- World::new (main.rs lines 87-120): nodes indexed `0..n`, each vector
`SameNode` at its own position and `Infinity` elsewhere, no edges, no inbox. -/
def World.new (names : List String) : World :=
  { nodes := (List.range names.length).map (fun i =>
      { name := (names.get? i).getD ("")
        dv := (List.range names.length).map (fun j =>
          if j = i then DVValue.sameNode else DVValue.infinity)
        inbox := []
        index := i
        connected := [] })
    generation := 0 }

/-- add_interface (main.rs lines 122-134): resolve both names to indices,
failing when either is unregistered. -/
def World.add_interface (w : World) (node_a node_b : String) (weight : Nat) :
    Option Operation :=
  match w.nodes.find? (fun n => n.name = node_a), w.nodes.find? (fun n => n.name = node_b) with
  | some na, some nb => some (Operation.changeWeight na.index nb.index weight)
  | _, _ => none

/-- Relations seeded from the current `connected` lists of every node
(main.rs lines 195-198): `relations[(a,b)] = weight` recorded on node `a`. -/
def baseRel (w : World) (a b : Nat) : Option Nat :=
  match w.nodes.find? (fun n => n.index = a) with
  | some node => (node.connected.find? (fun p => p.1 = b)).map (fun p => p.2)
  | none => none

/-- Relation updates of `apply_operations` (main.rs lines 209-234): each
`ChangeWeight(a,b,w)` overwrites both ordered pairs. -/
def opRelations (rel : Nat → Nat → Option Nat) : List Operation → (Nat → Nat → Option Nat)
  | [] => rel
  | Operation.changeWeight a b wt :: rest =>
      opRelations
        (fun x y => if (x = a ∧ y = b) ∨ (x = b ∧ y = a) then some wt else rel x y) rest

/-- Vector updates of `apply_operations` (main.rs lines 215-231): each operation
seeds both endpoints' vectors via `modify_dv`.  The list is indexed by node
index; out-of-range indices (which would panic in the source) leave it unchanged. -/
def opDvs (dvs : List (List DVValue)) : List Operation → List (List DVValue)
  | [] => dvs
  | Operation.changeWeight a b wt :: rest =>
      let d1 := dvs.set a (modify_dv (dvs.getD a []) b wt)
      let d2 := d1.set b (modify_dv (d1.getD b []) a wt)
      opDvs d2 rest

/-- Neighbor list of node `n` read off the relations map (main.rs lines 240-245
and 415-420 iterate the `relations` HashMap, an unspecified order; the canonical
embedding enumerates keys in ascending index order). -/
def neighborsOf (rel : Nat → Nat → Option Nat) (n count : Nat) : List (Nat × Nat) :=
  (List.range count).filterMap (fun b => (rel n b).map (fun wt => (b, wt)))

/-- Rebuild step shared by `apply_operations` (main.rs lines 236-254) and the
commit of `run_simulation` (lines 409-429): every node receives its new vector,
a fresh inbox holding each neighbor's new vector, and its connected list. -/
def rebuild (rel : Nat → Nat → Option Nat) (dvs : List (List DVValue))
    (nodes : List Node) : List Node :=
  nodes.map (fun node =>
    { node with
      dv := dvs.getD node.index []
      inbox := (neighborsOf rel node.index nodes.length).map
        (fun p => (p.1, dvs.getD p.1 []))
      connected := neighborsOf rel node.index nodes.length })

/-- apply_operations (main.rs lines 189-257): update relations and seed vectors,
then rebuild every node.  The generation counter is kept. -/
def World.apply_operations (w : World) (ops : List Operation) : World :=
  { nodes := rebuild (opRelations (baseRel w) ops)
      (opDvs (w.nodes.map (fun n => n.dv)) ops) w.nodes
    generation := w.generation }

/-- Sequence a fallible computation over a list (models loops in which any
panic aborts the whole computation). -/
def collectSome (f : α → Option β) : List α → Option (List β)
  | [] => some []
  | a :: l =>
      match f a, collectSome f l with
      | some b, some l' => some (b :: l')
      | _, _ => none

/-- Direct-cost map of a node (main.rs lines 296-306): for every connected
neighbor, the weight is read out of the node's own current vector entry for that
neighbor, which must be a `Distance` (any other variant panics the source:
`cost.unwrap()`), not out of the stored edge weight (that line is commented out
in the source). -/
def dcList (node : Node) : Option (List (Nat × Nat)) :=
  collectSome (fun p =>
    match node.dv.get? p.1 with
    | some (DVValue.distance w _) => some (p.1, w)
    | _ => none) node.connected

/-- HashMap-style lookup in an association list. -/
def lookupW (l : List (Nat × Nat)) (k : Nat) : Option Nat :=
  (l.find? (fun p => p.1 = k)).map (fun p => p.2)

/-- One inbox member's contribution for destination `d` (main.rs lines 348-379):
outer `none` is a panic (`direct_cost.get(..).unwrap()` on a key that is absent,
or vector indexing out of range), `some none` means the neighbor advertises
`Infinity` (no candidate), and `some (some (via, cost))` is a candidate. -/
def candOf (dc : List (Nat × Nat)) (d : Nat) (q : Nat × List DVValue) :
    Option (Option (Nat × Nat)) :=
  match lookupW dc q.1, q.2.get? d with
  | some _, some DVValue.infinity => some none
  | some dcw, some (DVValue.distance w _) => some (some (q.1, w + dcw))
  | some dcw, some DVValue.sameNode => some (some (q.1, dcw))
  | _, _ => none

/-- Candidate loop of one entry (main.rs lines 348-379): start from `Infinity`
and replace the running value whenever a candidate is strictly cheaper. -/
def relaxFold (dc : List (Nat × Nat)) (d : Nat) :
    List (Nat × List DVValue) → DVValue → Option DVValue
  | [], v => some v
  | q :: rest, v =>
      match candOf dc d q with
      | none => none
      | some none => relaxFold dc d rest v
      | some (some (via, c)) =>
          let replace : Bool :=
            match v with
            | DVValue.infinity => true
            | DVValue.distance old_w _ => c < old_w
            | DVValue.sameNode => false
          relaxFold dc d rest (if replace then DVValue.distance c via else v)

/-- Relaxation of one destination entry over the node's inbox. -/
def relaxEntry (node : Node) (dc : List (Nat × Nat)) (d : Nat) : Option DVValue :=
  relaxFold dc d node.inbox DVValue.infinity

/-- Per-node entry loop (main.rs lines 308-394): walk the current vector with an
index counter, keeping `SameNode` at the node's own position and relaxing every
other destination. -/
def relaxDv (node : Node) (dc : List (Nat × Nat)) : Nat → List DVValue → Option (List DVValue)
  | _, [] => some []
  | index, _v_old :: rest =>
      match (if index = node.index then some DVValue.sameNode else relaxEntry node dc index),
          relaxDv node dc (index + 1) rest with
      | some h, some t => some (h :: t)
      | _, _ => none

/-- New vector of one node in one round (main.rs lines 295-404). -/
def relaxNode (node : Node) : Option (List DVValue) :=
  match dcList node with
  | none => none
  | some dc => relaxDv node dc 0 node.dv

/-- New vectors of every node in one round, in index order. -/
def roundDvs (w : World) : Option (List (List DVValue)) :=
  collectSome relaxNode w.nodes

/-- Change test of one node (main.rs line 384): entry `index` counts as changed
when it differs from the old entry under the derived (structural) equality; the
node's own position is never compared. -/
def changedFrom (selfIdx : Nat) : Nat → List DVValue → List DVValue → Bool
  | _, [], _ => false
  | _, _ :: _, [] => false
  | index, v_old :: rest, v_new :: restNew =>
      (if index = selfIdx then false else decide (v_new ≠ v_old)) ||
        changedFrom selfIdx (index + 1) rest restNew

/-- Changed-node set of a round (main.rs lines 287, 384-386), in index order. -/
def changedSet (w : World) (newDvs : List (List DVValue)) : List Nat :=
  (w.nodes.zip newDvs).filterMap (fun p =>
    if changedFrom p.1.index 0 p.1.dv p.2 then some p.1.index else none)

/-- Commit of a changed round (main.rs lines 409-431): new vectors, refreshed
inboxes, generation + 1. -/
def commitWorld (w : World) (newDvs : List (List DVValue)) : World :=
  { nodes := rebuild (baseRel w) newDvs w.nodes
    generation := w.generation + 1 }

/-- run_simulation (main.rs lines 284-433): relax every node from the frozen
inboxes, then either report no change or commit a new world.  `none` models a
panic inside the round. -/
def World.run_simulation (w : World) : Option NewState :=
  match roundDvs w with
  | none => none
  | some newDvs =>
      if changedSet w newDvs = [] then some NewState.notChanged
      else some (NewState.changed (commitWorld w newDvs))

/-- run_until_stable (main.rs lines 468-478), with explicit fuel for the
recursion: on no change the generation still advances by one. -/
def run_until_stable (fuel : Nat) (w : World) : Option World :=
  match fuel with
  | 0 => none
  | fuel' + 1 =>
      match w.run_simulation with
      | none => none
      | some NewState.notChanged => some { w with generation := w.generation + 1 }
      | some (NewState.changed w2) => run_until_stable fuel' w2

/-- Convenience: the committed world of a changed round (the input world when
the round reports no change or panics). -/
def stepD (w : World) : World :=
  match w.run_simulation with
  | some (NewState.changed w') => w'
  | _ => w

/-- initial_world2 (main.rs lines 455-466): the 4-node scenario A-B=2, B-C=7,
C-D=4, A-D=8, B-D=9. -/
def initial_world2 : Option World := do
  let w := World.new [("A"), ("B"), ("C"), ("D")]
  let o1 ← w.add_interface ("A") ("B") 2
  let o2 ← w.add_interface ("B") ("C") 7
  let o3 ← w.add_interface ("C") ("D") 4
  let o4 ← w.add_interface ("A") ("D") 8
  let o5 ← w.add_interface ("B") ("D") 9
  pure (w.apply_operations [o1, o2, o3, o4, o5])

/-- First half of main (main.rs lines 480-492): run scenario A to convergence. -/
def scenA_stable : Option World := do
  let w ← initial_world2
  run_until_stable 10 w

/-- Second half of main (main.rs lines 494-500): re-weight B-D to 80. -/
def scenB_start : Option World := do
  let w ← scenA_stable
  let op ← w.add_interface ("B") ("D") 80
  pure (w.apply_operations [op])

/-- Scenario B run to convergence. -/
def scenB_stable : Option World := do
  let w ← scenB_start
  run_until_stable 10 w

/-- Placeholder node for total lookups in closed statements. -/
def dummyNode : Node :=
  { name := (""), dv := [], inbox := [], index := 0, connected := [] }

/-- Entry of node `n` for destination `d` in a world. -/
def entryOf (w : World) (n d : Nat) : DVValue :=
  ((w.nodes.getD n dummyNode).dv.getD d DVValue.infinity)


/-- Discriminate the `Distance` variant. -/
def isDistance : DVValue → Bool
  | DVValue.distance _ _ => true
  | _ => false

/-- Single replacement step of the candidate loop: keep the running entry
unless the candidate `(via, cost)` is strictly cheaper (main.rs lines 368-378). -/
def minStep (v : DVValue) (mc : Nat × Nat) : DVValue :=
  match v with
  | DVValue.infinity => DVValue.distance mc.2 mc.1
  | DVValue.distance old_w _ => if mc.2 < old_w then DVValue.distance mc.2 mc.1 else v
  | DVValue.sameNode => v

/-- Candidate accumulation of one entry, abstracted from `relaxFold`. -/
def foldMinDV (cs : List (Nat × Nat)) (v : DVValue) : DVValue :=
  cs.foldl minStep v

/-- Entry produced from a candidate list: `Infinity` when empty, otherwise the
first minimum-cost candidate. -/
def pickMinFirst (cs : List (Nat × Nat)) : DVValue :=
  foldMinDV cs DVValue.infinity

/-- Reference first-minimum selector: keeps the earlier candidate unless a
later one is strictly cheaper. -/
def pickFirstMin : List (Nat × Nat) → Option (Nat × Nat)
  | [] => none
  | q :: rest =>
      match pickFirstMin rest with
      | none => some q
      | some r => if r.2 < q.2 then some r else some q

/-- Candidate list of one entry: every inbox member contributes its candidate
(per `candOf`), members advertising `Infinity` contribute none, and a panic
(`none`) aborts. -/
def candsOf (dc : List (Nat × Nat)) (d : Nat) : List (Nat × List DVValue) → Option (List (Nat × Nat))
  | [] => some []
  | q :: rest =>
      match candOf dc d q, candsOf dc d rest with
      | none, _ => none
      | some _, none => none
      | some none, some cs => some cs
      | some (some mc), some cs => some (mc :: cs)

/-- Neighbor list read off the relations map in an explicitly given enumeration
order (the source iterates a HashMap, whose order is unspecified; `order` is
the sequence of keys probed, so any permutation of the index range is a
realizable enumeration). -/
def neighborsOfWith (order : List Nat) (rel : Nat → Nat → Option Nat) (n : Nat) :
    List (Nat × Nat) :=
  order.filterMap (fun b => (rel n b).map (fun wt => (b, wt)))

/-- Rebuild step with an explicit per-node enumeration order. -/
def rebuildWith (orders : Nat → List Nat) (rel : Nat → Nat → Option Nat)
    (dvs : List (List DVValue)) (nodes : List Node) : List Node :=
  nodes.map (fun node =>
    { node with
      dv := dvs.getD node.index []
      inbox := (neighborsOfWith (orders node.index) rel node.index).map
        (fun p => (p.1, dvs.getD p.1 []))
      connected := neighborsOfWith (orders node.index) rel node.index })

/-- Commit of a changed round with an explicit enumeration order. -/
def commitWith (orders : Nat → List Nat) (w : World) (newDvs : List (List DVValue)) : World :=
  { nodes := rebuildWith orders (baseRel w) newDvs w.nodes
    generation := w.generation + 1 }

/-- One round that commits with an explicit enumeration order; `none` when the
round panics or reports no change. -/
def changedStepWith (orders : Nat → List Nat) (w : World) : Option World :=
  match roundDvs w with
  | none => none
  | some newDvs =>
      if changedSet w newDvs = [] then none
      else some (commitWith orders w newDvs)

/-- Ascending enumeration order over four nodes (one possible HashMap order). -/
def orderAsc : Nat → List Nat := fun _ => [0, 1, 2, 3]

/-- Descending enumeration order over four nodes (another possible HashMap
order). -/
def orderRev : Nat → List Nat := fun _ => [3, 2, 1, 0]

/-- Advertised vector of neighbor `m` in a node's inbox. -/
def inboxVec (node : Node) (m : Nat) : List DVValue :=
  ((node.inbox.find? (fun q => q.1 = m)).map (fun q => q.2)).getD []

/-- Modelled from the claim wording of C2 (spec section 4.3): for destination
`d`, the direct neighbor `d` contributes a candidate at the STORED edge weight,
and every other neighbor `m` contributes the stored edge weight to `m` plus the
advertised (inbox) cost of `m` for `d`; an advertised `Infinity` yields no
candidate. -/
def specWeightCandList (node : Node) (d : Nat) : List (Nat × Nat) :=
  node.connected.filterMap (fun p =>
    if p.1 = d then some (p.1, p.2)
    else
      match (inboxVec node p.1).getD d DVValue.infinity with
      | DVValue.infinity => none
      | DVValue.sameNode => some (p.1, p.2)
      | DVValue.distance wadv _ => some (p.1, p.2 + wadv))

/-- Minimum of the claim-worded candidate set of C2 (first minimum wins). -/
def specWeightRelax (node : Node) (d : Nat) : DVValue :=
  pickMinFirst (specWeightCandList node d)

/-- Candidate set as the code actually computes it (amended C2): every inbox
member `m` contributes the weight stored in the node's OWN current vector entry
for `m` plus the advertised cost of `m` for `d`. -/
def specOwnGo (node : Node) (d : Nat) (inb : List (Nat × List DVValue)) : List (Nat × Nat) :=
  inb.filterMap (fun q =>
    match node.dv.getD q.1 DVValue.infinity, q.2.getD d DVValue.infinity with
    | DVValue.distance _ _, DVValue.infinity => none
    | DVValue.distance wm _, DVValue.sameNode => some (q.1, wm)
    | DVValue.distance wm _, DVValue.distance wadv _ => some (q.1, wm + wadv)
    | _, _ => none)

/-- Candidate set as the code actually computes it (amended C2), over the
node's own inbox. -/
def specOwnCandList (node : Node) (d : Nat) : List (Nat × Nat) :=
  specOwnGo node d node.inbox

/-- Three-node triangle A-B=1, B-C=1, A-C=4 (operations written directly as the
index form that `add_interface` would resolve). -/
def triWorld : World :=
  (World.new [("A"), ("B"), ("C")]).apply_operations
    [Operation.changeWeight 0 1 1, Operation.changeWeight 1 2 1, Operation.changeWeight 0 2 4]

/-- Three-node chain A-B=1, B-C=1. -/
def chainWorld : World :=
  (World.new [("A"), ("B"), ("C")]).apply_operations
    [Operation.changeWeight 0 1 1, Operation.changeWeight 1 2 1]

/-- Chain run to convergence, then edge B-C re-weighted from 1 to 100. -/
def chainMut : Option World := do
  let w ← run_until_stable 10 chainWorld
  pure (w.apply_operations [Operation.changeWeight 1 2 100])

/-- Chain with the increased edge, run to convergence again. -/
def chainMutStable : Option World := do
  let w ← chainMut
  run_until_stable 10 w

/-- Concrete value of the chain world after the weight increase. -/
def chainMutD : World := chainMut.getD (World.new [])

/-- Concrete value of the chain world re-converged after the increase. -/
def chainMutStableD : World := chainMutStable.getD (World.new [])

/-- Node B of the re-converged chain world. -/
def nodeBChain : Node := chainMutStableD.nodes.getD 1 dummyNode

/-- Concrete value of the scenario-B post-mutation world. -/
def scenBstartD : World := scenB_start.getD (World.new [])

/-- Scenario-B world after one round committed in ascending enumeration order. -/
def worldAsc : World := stepD scenBstartD

/-- Scenario-B world after one round committed in descending enumeration order
(same vectors, permuted inboxes). -/
def worldRev : World := (changedStepWith orderRev scenBstartD).getD (World.new [])

/-- Node B of `worldAsc`. -/
def nodeBA : Node := worldAsc.nodes.getD 1 dummyNode

/-- Node B of `worldRev`. -/
def nodeBR : Node := worldRev.nodes.getD 1 dummyNode

/-- C1, counterexample: in the re-converged scenario B the entry of B for D is
`Distance(10, A)` (path B-A-D, 2+8), not cost 11 via neighbor C as claimed; the
claim overlooks the cheaper route through A. -/
theorem C1_counterexample :
    scenB_stable.map (fun w => entryOf w 1 3) = some (DVValue.distance 10 0)
    ∧ (DVValue.distance 10 0).cost ≠ (DVValue.distance 11 2).cost := by
  exact ⟨rfl, by decide⟩

/-- C1, amended: scenario A converges with the A-to-D cost 8 (direct edge) and
the B-to-D cost 9; after re-weighting B-D to 80 and re-converging, A-to-D stays
at cost 8 and B-to-D converges to cost 10 via neighbor A (2+8), not 11 via C. -/
theorem C1_amended :
    scenA_stable.map (fun w => entryOf w 0 3) = some (DVValue.distance 8 3)
    ∧ scenA_stable.map (fun w => entryOf w 1 3) = some (DVValue.distance 9 3)
    ∧ scenB_stable.map (fun w => entryOf w 0 3) = some (DVValue.distance 8 3)
    ∧ scenB_stable.map (fun w => entryOf w 1 3) = some (DVValue.distance 10 0) := by
  exact ⟨rfl, rfl, rfl, rfl⟩

/-- C3, counterexample: the equality at main.rs line 384 is the derived
structural one, so two entries of equal cost but different via-neighbor compare
unequal; concretely, the second round on the triangle A-B=1, B-C=1, A-C=4
changes no entry cost (it only rewrites the via-neighbor of node C for
destination A) yet the changed-node set is {C}, not empty. -/
theorem C3_counterexample :
    (DVValue.distance 2 0).cost = (DVValue.distance 2 1).cost
    ∧ DVValue.distance 2 0 ≠ DVValue.distance 2 1
    ∧ (roundDvs (stepD triWorld)).map (fun nds => nds.map (fun l => l.map DVValue.cost))
        = some ((stepD triWorld).nodes.map (fun n => n.dv.map DVValue.cost))
    ∧ (roundDvs (stepD triWorld)).map (changedSet (stepD triWorld)) = some [2] := by
  refine ⟨rfl, by decide, rfl, rfl⟩

/-- C6, counterexample: a relaxation round can increase an entry cost.  In the
chain A-B=1, B-C=1 converged and then re-weighted to B-C=100, the next round
raises the entry of A for C from cost 2 to cost 101. -/
theorem C6_counterexample :
    chainMut.isSome = true
    ∧ chainMutD.run_simulation = some (NewState.changed (stepD chainMutD))
    ∧ (entryOf chainMutD 0 2).cost = Cost.value 2
    ∧ (entryOf (stepD chainMutD) 0 2).cost = Cost.value 101
    ∧ Cost.le (entryOf (stepD chainMutD) 0 2).cost (entryOf chainMutD 0 2).cost = false := by
  refine ⟨rfl, rfl, rfl, rfl, rfl⟩

/-- C7, counterexample: no bound of V-1 rounds holds for every execution.  The
changed-node check is via-sensitive and the inbox enumeration order is an
unspecified HashMap order, so with the realizable orders below the four-node
scenario B still reports a changed round four times in a row (V-1 = 3): an
equal-cost tie keeps flipping between via A and via D. -/
theorem C7_counterexample :
    scenB_start.isSome = true
    ∧ scenBstartD.nodes.length = 4
    ∧ (do
        let a ← changedStepWith orderRev scenBstartD
        let b ← changedStepWith orderAsc a
        let c ← changedStepWith orderRev b
        let d ← changedStepWith orderAsc c
        pure d).isSome = true := by
  refine ⟨rfl, rfl, rfl⟩

/-- C7, amended: under the ascending (canonical) enumeration order the concrete
scenarios of the program do converge within V-1 = 3 rounds (fuel 4 covers three
changed rounds plus the final no-change round); the general V-1 bound fails
because via-flips under other enumeration orders can prolong the loop. -/
theorem C7_amended :
    (initial_world2.bind (run_until_stable 4)).isSome = true
    ∧ (scenB_start.bind (run_until_stable 4)).isSome = true
    ∧ initial_world2.map (fun w => w.nodes.length) = some 4 := by
  refine ⟨rfl, rfl, rfl⟩

/-- C5, counterexample: the chosen via-neighbor is not deterministic.  The same
round data committed under two realizable HashMap enumeration orders yields two
nodes with identical vectors whose inboxes are permutations of each other
(descending keys in one), and relaxing node B gives via A in one and via D in
the other for the same destination D at the same cost 10. -/
theorem C5_counterexample :
    nodeBA.inbox.Perm nodeBR.inbox
    ∧ nodeBA.dv = nodeBR.dv
    ∧ nodeBR.inbox.map (fun q => q.1) = [3, 2, 0]
    ∧ relaxNode nodeBA
        = some [DVValue.distance 2 0, DVValue.sameNode, DVValue.distance 7 2,
            DVValue.distance 10 0]
    ∧ relaxNode nodeBR
        = some [DVValue.distance 2 0, DVValue.sameNode, DVValue.distance 7 2,
            DVValue.distance 10 3] := by
  refine ⟨by decide, rfl, rfl, rfl, rfl⟩

/-- C2, counterexample: the candidate costs are not built from the stored edge
weights.  In the re-converged chain (B-C re-weighted to 100), relaxing node B
for destination C yields `Distance(3, C)` - the direct-cost map reads B's own
vector entry for C (cost 3), not the stored weight 100 - while the minimum of
the candidate set worded in the claim is cost 5 via A. -/
theorem C2_counterexample :
    chainMutStable.isSome = true
    ∧ nodeBChain.connected = [(0, 1), (2, 100)]
    ∧ relaxNode nodeBChain
        = some [DVValue.distance 1 0, DVValue.sameNode, DVValue.distance 3 2]
    ∧ specWeightRelax nodeBChain 2 = DVValue.distance 5 0
    ∧ (DVValue.distance 3 2).cost ≠ (DVValue.distance 5 0).cost := by
  refine ⟨rfl, rfl, rfl, rfl, by decide⟩

theorem pickFirstMin_none : ∀ cs : List (Nat × Nat), pickFirstMin cs = none ↔ cs = [] := by
  intro cs
  cases cs with
  | nil => simp [pickFirstMin]
  | cons q rest =>
      simp only [pickFirstMin]
      cases hr : pickFirstMin rest with
      | none => simp
      | some r =>
          by_cases h : r.2 < q.2 <;> simp [h]

theorem pickFirstMin_min : ∀ (cs : List (Nat × Nat)) (q : Nat × Nat),
    pickFirstMin cs = some q → q ∈ cs ∧ ∀ p ∈ cs, q.2 ≤ p.2 := by
  intro cs
  induction cs with
  | nil => intro q h; cases h
  | cons p rest ih =>
      intro q h
      simp only [pickFirstMin] at h
      split at h
      · rename_i hr
        obtain rfl : p = q := Option.some.inj h
        have hrest : rest = [] := (pickFirstMin_none rest).mp hr
        subst hrest
        refine ⟨List.mem_singleton.mpr rfl, ?_⟩
        intro x hx
        cases hx with
        | head => exact Nat.le_refl _
        | tail _ hx' => cases hx'
      · rename_i r hr
        by_cases hlt : r.2 < p.2
        · rw [if_pos hlt] at h
          obtain rfl : r = q := Option.some.inj h
          obtain ⟨hmem, hmin⟩ := ih r hr
          refine ⟨List.mem_cons_of_mem _ hmem, ?_⟩
          intro x hx
          cases hx with
          | head => exact Nat.le_of_lt hlt
          | tail _ hx' => exact hmin x hx'
        · rw [if_neg hlt] at h
          obtain rfl : p = q := Option.some.inj h
          obtain ⟨_, hmin⟩ := ih r hr
          refine ⟨List.mem_cons_self _ _, ?_⟩
          intro x hx
          cases hx with
          | head => exact Nat.le_refl _
          | tail _ hx' => exact Nat.le_trans (Nat.le_of_not_lt hlt) (hmin x hx')

theorem pickFirstMin_first : ∀ (cs : List (Nat × Nat)) (q : Nat × Nat),
    pickFirstMin cs = some q →
      ∃ pre suf, cs = pre ++ q :: suf ∧ ∀ p ∈ pre, q.2 < p.2 := by
  intro cs
  induction cs with
  | nil => intro q h; cases h
  | cons p rest ih =>
      intro q h
      simp only [pickFirstMin] at h
      split at h
      · rename_i hr
        obtain rfl : p = q := Option.some.inj h
        exact ⟨[], rest, rfl, by intro x hx; cases hx⟩
      · rename_i r hr
        by_cases hlt : r.2 < p.2
        · rw [if_pos hlt] at h
          obtain rfl : r = q := Option.some.inj h
          obtain ⟨pre, suf, heq, hpre⟩ := ih r hr
          refine ⟨p :: pre, suf, by rw [heq]; rfl, ?_⟩
          intro x hx
          cases hx with
          | head => exact hlt
          | tail _ hx' => exact hpre x hx'
        · rw [if_neg hlt] at h
          obtain rfl : p = q := Option.some.inj h
          exact ⟨[], rest, rfl, by intro x hx; cases hx⟩

theorem foldMinDV_dist : ∀ (cs : List (Nat × Nat)) (c0 m0 : Nat),
    foldMinDV cs (DVValue.distance c0 m0)
      = match pickFirstMin cs with
        | none => DVValue.distance c0 m0
        | some r => if r.2 < c0 then DVValue.distance r.2 r.1 else DVValue.distance c0 m0 := by
  intro cs
  induction cs with
  | nil => intro c0 m0; rfl
  | cons q rest ih =>
      intro c0 m0
      have hstep : foldMinDV (q :: rest) (DVValue.distance c0 m0)
          = foldMinDV rest (if q.2 < c0 then DVValue.distance q.2 q.1
              else DVValue.distance c0 m0) := by
        simp [foldMinDV, minStep]
      rw [hstep]
      simp only [pickFirstMin]
      by_cases h1 : q.2 < c0
      · rw [if_pos h1, ih]
        cases hr : pickFirstMin rest with
        | none => simp [h1]
        | some r =>
            by_cases h2 : r.2 < q.2
            · have : r.2 < c0 := Nat.lt_trans h2 h1
              simp [h2, h1, this]
            · simp [h2, h1]
      · rw [if_neg h1, ih]
        cases hr : pickFirstMin rest with
        | none => simp [h1]
        | some r =>
            by_cases h2 : r.2 < q.2
            · simp [h2]
            · have : ¬ r.2 < c0 := by omega
              simp [h2, h1, this]

theorem pickMinFirst_eq : ∀ cs : List (Nat × Nat),
    pickMinFirst cs = match pickFirstMin cs with
      | none => DVValue.infinity
      | some r => DVValue.distance r.2 r.1 := by
  intro cs
  cases cs with
  | nil => rfl
  | cons q rest =>
      have hstep : pickMinFirst (q :: rest) = foldMinDV rest (DVValue.distance q.2 q.1) := rfl
      rw [hstep, foldMinDV_dist]
      simp only [pickFirstMin]
      cases hr : pickFirstMin rest with
      | none => simp
      | some r =>
          by_cases h2 : r.2 < q.2 <;> simp [h2]

theorem relaxFold_eq (dc : List (Nat × Nat)) (d : Nat) :
    ∀ (inb : List (Nat × List DVValue)) (v : DVValue),
      relaxFold dc d inb v = (candsOf dc d inb).map (fun cs => foldMinDV cs v) := by
  intro inb
  induction inb with
  | nil => intro v; rfl
  | cons q rest ih =>
      intro v
      cases hq : candOf dc d q with
      | none => simp [relaxFold, candsOf, hq]
      | some o =>
          cases o with
          | none =>
              cases hr : candsOf dc d rest with
              | none =>
                  have h1 := ih v
                  rw [hr] at h1
                  simp [relaxFold, candsOf, hq, hr, h1]
              | some cs =>
                  have h1 := ih v
                  rw [hr] at h1
                  simp [relaxFold, candsOf, hq, hr, h1]
          | some mc =>
              obtain ⟨via, c⟩ := mc
              have hv : (if (match v with
                    | DVValue.infinity => true
                    | DVValue.distance old_w _ => decide (c < old_w)
                    | DVValue.sameNode => false) = true then DVValue.distance c via else v)
                  = minStep v (via, c) := by
                cases v with
                | infinity => rfl
                | distance ow vi => simp [minStep]
                | sameNode => rfl
              cases hr : candsOf dc d rest with
              | none =>
                  have := ih (minStep v (via, c))
                  rw [hr] at this
                  simp only [relaxFold, candsOf, hq, hr, Option.map_none]
                  rw [hv]
                  exact this
              | some cs =>
                  have := ih (minStep v (via, c))
                  rw [hr] at this
                  simp only [relaxFold, candsOf, hq, hr, Option.map_some]
                  rw [hv, this]
                  rfl

theorem collectSome_cons (f : α → Option β) (a : α) (l : List α) (out : List β)
    (h : collectSome f (a :: l) = some out) :
    ∃ b l', f a = some b ∧ collectSome f l = some l' ∧ out = b :: l' := by
  simp only [collectSome] at h
  split at h
  · rename_i b l' hfa hl
    exact ⟨b, l', hfa, hl, (Option.some.inj h).symm⟩
  · cases h

theorem collectSome_forall (f : α → Option β) :
    ∀ (l : List α) (out : List β), collectSome f l = some out →
      ∀ a ∈ l, ∃ b, f a = some b := by
  intro l
  induction l with
  | nil => intro out _ a ha; cases ha
  | cons x rest ih =>
      intro out h a ha
      obtain ⟨b, l', hfx, hrest, _⟩ := collectSome_cons f x rest out h
      cases ha with
      | head => exact ⟨b, hfx⟩
      | tail _ ha' => exact ih l' hrest a ha'

theorem collectSome_all_some (f : α → Option β) :
    ∀ l : List α, (∀ a ∈ l, ∃ b, f a = some b) → ∃ out, collectSome f l = some out := by
  intro l
  induction l with
  | nil => intro _; exact ⟨[], rfl⟩
  | cons x rest ih =>
      intro h
      obtain ⟨b, hb⟩ := h x (List.mem_cons_self _ _)
      obtain ⟨out, hout⟩ := ih (fun a ha => h a (List.mem_cons_of_mem _ ha))
      exact ⟨b :: out, by simp [collectSome, hb, hout]⟩

theorem dcList_mem_distance (node : Node) (dcl : List (Nat × Nat))
    (h : dcList node = some dcl) :
    ∀ p ∈ node.connected, ∃ w via, node.dv.get? p.1 = some (DVValue.distance w via) := by
  intro p hp
  obtain ⟨b, hb⟩ := collectSome_forall _ node.connected dcl h p hp
  revert hb
  cases hdv : node.dv.get? p.1 with
  | none => intro hb; cases hb
  | some e =>
      cases e with
      | infinity => intro hb; cases hb
      | distance w via => intro _; exact ⟨w, via, rfl⟩
      | sameNode => intro hb; cases hb

theorem dcList_lookup (node : Node) :
    ∀ (conn dcl : List (Nat × Nat)),
      collectSome (fun p =>
        match node.dv.get? p.1 with
        | some (DVValue.distance w _) => some (p.1, w)
        | _ => none) conn = some dcl →
      ∀ k w via, node.dv.get? k = some (DVValue.distance w via) →
        (∃ p ∈ conn, p.1 = k) → lookupW dcl k = some w := by
  intro conn
  induction conn with
  | nil =>
      intro dcl _ k w via _ hmem
      obtain ⟨p, hp, _⟩ := hmem
      cases hp
  | cons p rest ih =>
      intro dcl h k w via hk hmem
      obtain ⟨b, l', hfp, hrest, rfl⟩ := collectSome_cons _ p rest dcl h
      have hb1 : b.1 = p.1 ∧ node.dv.get? p.1 = some (DVValue.distance b.2 b.2) ∨ b.1 = p.1 := by
        revert hfp
        cases hdv : node.dv.get? p.1 with
        | none => intro hfp; cases hfp
        | some e =>
            cases e with
            | infinity => intro hfp; cases hfp
            | distance w2 via2 =>
                intro hfp
                right
                have : (p.1, w2) = b := Option.some.inj hfp
                rw [← this]
            | sameNode => intro hfp; cases hfp
      by_cases hpk : p.1 = k
      · have hbval : b = (k, w) := by
          rw [hpk] at hfp
          rw [hk] at hfp
          exact (Option.some.inj hfp).symm
        subst hbval
        simp [lookupW, List.find?]
      · have hb1' : b.1 = p.1 := by
          rcases hb1 with ⟨h1, _⟩ | h1 <;> exact h1
        have hskip : lookupW (b :: l') k = lookupW l' k := by
          simp only [lookupW, List.find?]
          have : (b.1 = k) = False := by
            simp [hb1', hpk]
          simp [this]
        rw [hskip]
        apply ih l' hrest k w via hk
        obtain ⟨p', hp', hp'k⟩ := hmem
        cases hp' with
        | head => exact absurd hp'k hpk
        | tail _ hmem' => exact ⟨p', hmem', hp'k⟩

theorem candsOf_specOwn (node : Node) (dc : List (Nat × Nat)) (d : Nat)
    (hdc : dcList node = some dc) :
    ∀ inb : List (Nat × List DVValue),
      (∀ q ∈ inb, ∃ p ∈ node.connected, p.1 = q.1) →
      (∀ q ∈ inb, d < q.2.length) →
      candsOf dc d inb = some (specOwnGo node d inb) := by
  intro inb
  induction inb with
  | nil => intro _ _; rfl
  | cons q rest ih =>
      intro hsub hlen
      obtain ⟨p, hp, hpk⟩ := hsub q (List.mem_cons_self _ _)
      obtain ⟨wm, vim, hdv0⟩ := dcList_mem_distance node dc hdc p hp
      have hdv : node.dv.get? q.1 = some (DVValue.distance wm vim) := by
        rw [← hpk]; exact hdv0
      have hlook : lookupW dc q.1 = some wm :=
        dcList_lookup node node.connected dc hdc q.1 wm vim hdv ⟨p, hp, hpk⟩
      have hd : d < q.2.length := hlen q (List.mem_cons_self _ _)
      have he : q.2.get? d = some (q.2.getD d DVValue.infinity) := by
        rw [List.getD_eq_get?]
        rw [List.get?_eq_get hd]
        rfl
      have hdvE : node.dv[q.1]? = some (DVValue.distance wm vim) := by
        rw [← List.get?_eq_getElem?]; exact hdv
      have htail := ih (fun x hx => hsub x (List.mem_cons_of_mem _ hx))
        (fun x hx => hlen x (List.mem_cons_of_mem _ hx))
      cases hev : q.2.getD d DVValue.infinity with
      | infinity =>
          rw [hev] at he
          have heE : q.2[d]? = some DVValue.infinity := by
            rw [← List.get?_eq_getElem?]; exact he
          simp [candsOf, candOf, specOwnGo, hlook, heE, hdvE, htail]
      | distance wadv via2 =>
          rw [hev] at he
          have heE : q.2[d]? = some (DVValue.distance wadv via2) := by
            rw [← List.get?_eq_getElem?]; exact he
          simp [candsOf, candOf, specOwnGo, hlook, heE, hdvE, htail, Nat.add_comm]
      | sameNode =>
          rw [hev] at he
          have heE : q.2[d]? = some DVValue.sameNode := by
            rw [← List.get?_eq_getElem?]; exact he
          simp [candsOf, candOf, specOwnGo, hlook, heE, hdvE, htail]

/-- C5, amended: candidates are enumerated in the (unspecified) inbox order,
not necessarily ascending; the minimum-cost candidate wins and among equal-cost
candidates the first-enumerated one wins, so the chosen via-neighbor is
determined only once the enumeration order is fixed.  `relaxEntry` equals the
first minimum of the candidate list, which is minimal and strictly cheaper than
every candidate enumerated before it. -/
theorem C5_amended (node : Node) (dc : List (Nat × Nat)) (d : Nat) (cs : List (Nat × Nat))
    (h : candsOf dc d node.inbox = some cs) :
    relaxEntry node dc d = some (pickMinFirst cs)
    ∧ ∀ c m, pickMinFirst cs = DVValue.distance c m →
        ((m, c) ∈ cs ∧ ∀ q ∈ cs, c ≤ q.2)
        ∧ ∃ pre suf, cs = pre ++ (m, c) :: suf ∧ ∀ q ∈ pre, c < q.2 := by
  constructor
  · have h2 : relaxEntry node dc d
        = (candsOf dc d node.inbox).map (fun cs => foldMinDV cs DVValue.infinity) :=
      relaxFold_eq dc d node.inbox DVValue.infinity
    rw [h2, h]
    rfl
  · intro c m hpick
    have hfm : pickFirstMin cs = some (m, c) := by
      cases hf : pickFirstMin cs with
      | none =>
          have h0 := pickMinFirst_eq cs
          rw [hf, hpick] at h0
          simp at h0
      | some r =>
          have h0 := pickMinFirst_eq cs
          rw [hf, hpick] at h0
          simp only [DVValue.distance.injEq] at h0
          obtain ⟨hc, hm⟩ := h0
          cases r with
          | mk r1 r2 =>
              simp only at hc hm
              rw [hm, hc]
    obtain ⟨hmem, hmin⟩ := pickFirstMin_min cs (m, c) hfm
    obtain ⟨pre, suf, heq, hpre⟩ := pickFirstMin_first cs (m, c) hfm
    exact ⟨⟨hmem, hmin⟩, pre, suf, heq, hpre⟩

theorem C5_amended_witness :
    candsOf ((dcList nodeBA).getD []) 3 nodeBA.inbox = some [(0, 10), (2, 11), (3, 10)]
    ∧ (relaxEntry nodeBA ((dcList nodeBA).getD []) 3
        = some (pickMinFirst [(0, 10), (2, 11), (3, 10)])
      ∧ ∀ c m, pickMinFirst [(0, 10), (2, 11), (3, 10)] = DVValue.distance c m →
          ((m, c) ∈ [(0, 10), (2, 11), (3, 10)]
            ∧ ∀ q ∈ [(0, 10), (2, 11), (3, 10)], c ≤ q.2)
          ∧ ∃ pre suf, [(0, 10), (2, 11), (3, 10)] = pre ++ (m, c) :: suf
              ∧ ∀ q ∈ pre, c < q.2) :=
  ⟨rfl, C5_amended nodeBA ((dcList nodeBA).getD []) 3 [(0, 10), (2, 11), (3, 10)] rfl⟩

/-- C2, amended: for every relaxed entry of node N toward destination D, each
inbox neighbor M contributes one candidate whose cost is the weight stored in
N's OWN current vector entry for M (seeded to the edge weight by
apply_operations but possibly lowered by later rounds, main.rs lines 296-306)
plus M's pre-round advertised cost to D; an advertised `Infinity` contributes no
candidate, an advertised self entry contributes the own-entry weight alone (the
direct-edge case); the first minimum of these candidates becomes the new entry. -/
theorem C2_amended (node : Node) (dc : List (Nat × Nat)) (d : Nat)
    (hdc : dcList node = some dc)
    (hsub : ∀ q ∈ node.inbox, ∃ p ∈ node.connected, p.1 = q.1)
    (hlen : ∀ q ∈ node.inbox, d < q.2.length) :
    relaxEntry node dc d = some (pickMinFirst (specOwnCandList node d)) := by
  have h := candsOf_specOwn node dc d hdc node.inbox hsub hlen
  have h2 : relaxEntry node dc d
      = (candsOf dc d node.inbox).map (fun cs => foldMinDV cs DVValue.infinity) :=
    relaxFold_eq dc d node.inbox DVValue.infinity
  rw [h2, h]
  rfl

theorem C2_amended_witness :
    dcList nodeBChain = some [(0, 1), (2, 3)]
    ∧ (∀ q ∈ nodeBChain.inbox, ∃ p ∈ nodeBChain.connected, p.1 = q.1)
    ∧ (∀ q ∈ nodeBChain.inbox, 2 < q.2.length)
    ∧ relaxEntry nodeBChain [(0, 1), (2, 3)] 2
        = some (pickMinFirst (specOwnCandList nodeBChain 2)) :=
  ⟨rfl, by decide, by decide,
    C2_amended nodeBChain [(0, 1), (2, 3)] 2 rfl (by decide) (by decide)⟩

/-- C3, amended: the change test of a round (main.rs line 384) uses the derived
structural equality of main.rs's DVValue: a node counts as unchanged exactly
when every non-self entry is structurally identical (equal cost AND equal
via-neighbor) to the old one, so a round that alters only via-neighbors yields
a NONEMPTY changed set.  (The cost-only equality exists in the unused cost.rs
revision but is not what the simulation runs.) -/
theorem C3_amended : ∀ (vold vnew : List DVValue) (selfIdx k : Nat),
    vold.length = vnew.length →
    (changedFrom selfIdx k vold vnew = false ↔
      ∀ j, j < vold.length → k + j ≠ selfIdx →
        vnew.getD j DVValue.infinity = vold.getD j DVValue.infinity) := by
  intro vold
  induction vold with
  | nil =>
      intro vnew selfIdx k _
      simp [changedFrom]
  | cons v rest ih =>
      intro vnew selfIdx k h
      cases vnew with
      | nil => cases h
      | cons v' rest' =>
          have hlen : rest.length = rest'.length := by simpa using h
          have ihr := ih rest' selfIdx (k + 1) hlen
          simp only [changedFrom, Bool.or_eq_false_iff]
          constructor
          · rintro ⟨h1, h2⟩
            intro j hj hkj
            cases j with
            | zero =>
                simp only [List.getD_cons_zero]
                have hk : ¬ k = selfIdx := by omega
                rw [if_neg hk] at h1
                simpa using h1
            | succ j =>
                simp only [List.getD_cons_succ]
                refine (ihr.mp h2) j ?_ ?_
                · simpa [Nat.lt_succ_iff] using Nat.lt_of_succ_lt_succ (by simpa using hj)
                · omega
          · intro hall
            constructor
            · by_cases hk : k = selfIdx
              · rw [if_pos hk]
              · rw [if_neg hk]
                have h0 := hall 0 (by simp) (by omega)
                simp only [List.getD_cons_zero] at h0
                simp [h0]
            · refine ihr.mpr ?_
              intro j hj hkj
              have h0 := hall (j + 1) (by simpa using Nat.succ_lt_succ hj) (by omega)
              simpa [List.getD_cons_succ] using h0

theorem C3_amended_witness :
    ([DVValue.distance 2 1] : List DVValue).length = ([DVValue.distance 2 0] : List DVValue).length
    ∧ (changedFrom 1 0 [DVValue.distance 2 1] [DVValue.distance 2 0] = false ↔
        ∀ j, j < ([DVValue.distance 2 1] : List DVValue).length → 0 + j ≠ 1 →
          ([DVValue.distance 2 0] : List DVValue).getD j DVValue.infinity
            = ([DVValue.distance 2 1] : List DVValue).getD j DVValue.infinity) :=
  ⟨rfl, C3_amended [DVValue.distance 2 1] [DVValue.distance 2 0] 1 0 rfl⟩

theorem modifyDvGo_idem (b wt : Nat) :
    ∀ (l : List DVValue) (k : Nat),
      modifyDvGo b wt k (modifyDvGo b wt k l) = modifyDvGo b wt k l := by
  intro l
  induction l with
  | nil => intro k; rfl
  | cons v rest ih =>
      intro k
      by_cases hk : k = b <;> simp [modifyDvGo, hk, ih]

theorem modify_dv_idem (l : List DVValue) (b wt : Nat) :
    modify_dv (modify_dv l b wt) b wt = modify_dv l b wt :=
  modifyDvGo_idem b wt l 0

theorem modifyDvGo_length (b wt : Nat) :
    ∀ (l : List DVValue) (k : Nat), (modifyDvGo b wt k l).length = l.length := by
  intro l
  induction l with
  | nil => intro k; rfl
  | cons v rest ih => intro k; simp [modifyDvGo, ih]

theorem opDvs_length : ∀ (ops : List Operation) (dvs : List (List DVValue)),
    (opDvs dvs ops).length = dvs.length := by
  intro ops
  induction ops with
  | nil => intro dvs; rfl
  | cons op rest ih =>
      intro dvs
      cases op with
      | changeWeight a b wt => simp [opDvs, ih]

theorem set_of_get? {α : Type} : ∀ (l : List α) (i : Nat) (x : α),
    l.get? i = some x → l.set i x = l := by
  intro l i x h
  apply List.ext_get?
  intro n
  rw [List.get?_set]
  by_cases hin : i = n
  · subst hin
    rw [if_pos rfl, h]
    rfl
  · rw [if_neg hin]

/-- Pointwise description of applying one ChangeWeight to the vector table. -/
theorem opDvs_single_get? : ∀ (D : List (List DVValue)) (a b wt n : Nat),
    (opDvs D [Operation.changeWeight a b wt]).get? n
      = (D.get? n).map (fun row =>
          if n = b then modify_dv (if n = a then modify_dv row b wt else row) a wt
          else if n = a then modify_dv row b wt else row) := by
  intro D a b wt n
  by_cases hbn : n = b
  · subst hbn
    by_cases han : n = a
    · subst han
      cases hD : D.get? n with
      | none =>
          simp [opDvs, List.get?_set, List.getD_eq_get?, hD]
          exact List.get?_eq_none.mp hD
      | some row =>
          have hlt : n < D.length := by
            by_contra hc
            rw [List.get?_eq_none.mpr (Nat.le_of_not_lt hc)] at hD
            cases hD
          have hD2 : D[n]? = some row := by
            rw [← List.get?_eq_getElem?]; exact hD
          simp [opDvs, List.get?_set, List.getD_eq_get?, hD, hD2, hlt, List.length_set]
    · cases hD : D.get? n with
      | none =>
          simp [opDvs, List.get?_set, List.getD_eq_get?, hD, han, Ne.symm han]
          exact List.get?_eq_none.mp hD
      | some row =>
          have hlt : n < D.length := by
            by_contra hc
            rw [List.get?_eq_none.mpr (Nat.le_of_not_lt hc)] at hD
            cases hD
          have hD2 : D[n]? = some row := by
            rw [← List.get?_eq_getElem?]; exact hD
          simp [opDvs, List.get?_set, List.getD_eq_get?, hD, hD2, hlt,
            List.length_set, han, Ne.symm han]
          have hg : D[n] = row := by
            have h3 := List.getElem?_eq_getElem hlt
            rw [hD2] at h3
            exact (Option.some.inj h3).symm
          rw [hg]
  · by_cases han : n = a
    · subst han
      cases hD : D.get? n with
      | none =>
          simp [opDvs, List.get?_set, List.getD_eq_get?, hD, hbn, Ne.symm hbn]
          exact List.get?_eq_none.mp hD
      | some row =>
          have hlt : n < D.length := by
            by_contra hc
            rw [List.get?_eq_none.mpr (Nat.le_of_not_lt hc)] at hD
            cases hD
          have hD2 : D[n]? = some row := by
            rw [← List.get?_eq_getElem?]; exact hD
          simp [opDvs, List.get?_set, List.getD_eq_get?, hD, hD2, hlt,
            List.length_set, hbn, Ne.symm hbn]
    · cases hD : D.get? n with
      | none =>
          simp [opDvs, List.get?_set, List.getD_eq_get?, hD, hbn, han,
            Ne.symm hbn, Ne.symm han]
          exact List.get?_eq_none.mp hD
      | some row =>
          simp [opDvs, List.get?_set, List.getD_eq_get?, hD, hbn, han,
            Ne.symm hbn, Ne.symm han]
          rw [← List.get?_eq_getElem?]
          exact hD

theorem opDvs_single_idem (D : List (List DVValue)) (a b wt : Nat) :
    opDvs (opDvs D [Operation.changeWeight a b wt]) [Operation.changeWeight a b wt]
      = opDvs D [Operation.changeWeight a b wt] := by
  apply List.ext_get?
  intro n
  rw [opDvs_single_get?, opDvs_single_get?]
  cases hD : D.get? n with
  | none => rfl
  | some row =>
      simp only [Option.map_some']
      congr 1
      by_cases hb : n = b
      · subst hb
        by_cases ha : n = a
        · subst ha
          simp [modify_dv_idem]
        · simp [ha, modify_dv_idem]
      · by_cases ha : n = a
        · subst ha
          simp [hb, modify_dv_idem]
        · simp [hb, ha]

/-- Indices agree with list positions (holds for every world the program
builds, since `World::new` assigns indices 0..n in order). -/
def WellIndexed (w : World) : Prop :=
  ∀ i, i < w.nodes.length → (w.nodes.getD i dummyNode).index = i

instance (w : World) : Decidable (WellIndexed w) :=
  Nat.decidableBallLT w.nodes.length (fun i _ => (w.nodes.getD i dummyNode).index = i)

theorem rebuild_get? (rel : Nat → Nat → Option Nat) (dvs : List (List DVValue))
    (nodes : List Node) (n : Nat) :
    (rebuild rel dvs nodes).get? n
      = (nodes.get? n).map (fun node =>
          { node with
            dv := dvs.getD node.index []
            inbox := (neighborsOf rel node.index nodes.length).map
              (fun p => (p.1, dvs.getD p.1 []))
            connected := neighborsOf rel node.index nodes.length }) :=
  List.get?_map _ _ _

theorem map_dv_apply (w : World) (ops : List Operation) (hwi : WellIndexed w) :
    (w.apply_operations ops).nodes.map (fun nd => nd.dv)
      = opDvs (w.nodes.map (fun nd => nd.dv)) ops := by
  apply List.ext_get?
  intro i
  have hlen : (opDvs (w.nodes.map (fun nd => nd.dv)) ops).length = w.nodes.length := by
    rw [opDvs_length, List.length_map]
  have h0 : (w.apply_operations ops).nodes
      = rebuild (opRelations (baseRel w) ops)
          (opDvs (w.nodes.map (fun nd => nd.dv)) ops) w.nodes := rfl
  rw [h0, List.get?_map, rebuild_get?]
  cases hn : w.nodes.get? i with
  | none =>
      have hge : w.nodes.length ≤ i := List.get?_eq_none.mp hn
      rw [List.get?_eq_none.mpr (by rw [hlen]; exact hge)]
      rfl
  | some node =>
      have hlt : i < w.nodes.length := by
        by_contra hc
        rw [List.get?_eq_none.mpr (Nat.le_of_not_lt hc)] at hn
        cases hn
      have hidx : node.index = i := by
        have h1 := hwi i hlt
        rw [List.getD_eq_get?, hn] at h1
        exact h1
      have hget : (opDvs (w.nodes.map (fun nd => nd.dv)) ops).get? i
          = some ((opDvs (w.nodes.map (fun nd => nd.dv)) ops).getD i []) := by
        rw [List.getD_eq_get?, List.get?_eq_get (by rw [hlen]; exact hlt)]
        rfl
      rw [hget]
      simp [hidx]

theorem WI_apply (w : World) (ops : List Operation) (hwi : WellIndexed w) :
    WellIndexed (w.apply_operations ops) := by
  intro i hi
  have h0 : (w.apply_operations ops).nodes
      = rebuild (opRelations (baseRel w) ops)
          (opDvs (w.nodes.map (fun nd => nd.dv)) ops) w.nodes := rfl
  have hlen : (w.apply_operations ops).nodes.length = w.nodes.length := by
    rw [h0]
    show (List.map _ w.nodes).length = _
    exact List.length_map _ _
  rw [hlen] at hi
  have hn : w.nodes.get? i = some (w.nodes.getD i dummyNode) := by
    rw [List.getD_eq_get?, List.get?_eq_get hi]
    rfl
  rw [List.getD_eq_get?, h0, rebuild_get?, hn]
  exact hwi i hi

/-- Concrete value of the re-converged scenario B world. -/
def scenBstableD : World := scenB_stable.getD (World.new [])

/-- C9, counterexample: reapplying a recorded operation with its identical
weight is NOT a no-op once relaxation has run.  In the re-converged scenario B
the edge B-D=80 is recorded, but B's entry for D has been relaxed down to
`Distance(10, A)`; reapplying ChangeWeight(B, D, 80) overwrites it back to
`Distance(80, D)`, changing the vector. -/
theorem C9_counterexample :
    scenB_stable.isSome = true
    ∧ (3, 80) ∈ (scenBstableD.nodes.getD 1 dummyNode).connected
    ∧ entryOf scenBstableD 1 3 = DVValue.distance 10 0
    ∧ entryOf (scenBstableD.apply_operations [Operation.changeWeight 1 3 80]) 1 3
        = DVValue.distance 80 3 := by
  refine ⟨rfl, by decide, rfl, rfl⟩

/-- C9, amended: reapplying the same operation with an identical weight
immediately after it was applied (before any relaxation round) leaves every
node's distance vector unchanged: applying a ChangeWeight twice in a row
produces the same vector table as applying it once. -/
theorem C9_amended (w : World) (a b wt : Nat) (hwi : WellIndexed w) :
    ((w.apply_operations [Operation.changeWeight a b wt]).apply_operations
        [Operation.changeWeight a b wt]).nodes.map (fun n => n.dv)
      = (w.apply_operations [Operation.changeWeight a b wt]).nodes.map (fun n => n.dv) := by
  have h1 := map_dv_apply w [Operation.changeWeight a b wt] hwi
  have hwi1 := WI_apply w [Operation.changeWeight a b wt] hwi
  have h2 := map_dv_apply (w.apply_operations [Operation.changeWeight a b wt])
    [Operation.changeWeight a b wt] hwi1
  rw [h2, h1, opDvs_single_idem]

theorem C9_amended_witness :
    WellIndexed chainWorld
    ∧ ((chainWorld.apply_operations [Operation.changeWeight 0 1 5]).apply_operations
          [Operation.changeWeight 0 1 5]).nodes.map (fun n => n.dv)
        = (chainWorld.apply_operations [Operation.changeWeight 0 1 5]).nodes.map
            (fun n => n.dv) :=
  ⟨by decide, C9_amended chainWorld 0 1 5 (by decide)⟩

/-- Round results accumulated node by node in a given processing order, keyed
by node index (the source inserts each node's new vector into the `new_dvs`
HashMap as it is processed, main.rs line 403; each step reads only the
processed node's own frozen pre-round fields). -/
def roundAssoc (nodes : List Node) : Option (List (Nat × List DVValue)) :=
  collectSome (fun node => (relaxNode node).map (fun l => (node.index, l))) nodes

/-- Lookup of one node's new vector in the accumulated round results. -/
def lookupDvs (al : List (Nat × List DVValue)) (i : Nat) : Option (List DVValue) :=
  (al.find? (fun p => p.1 = i)).map (fun p => p.2)

theorem roundAssoc_eq (x : Node) (t : List Node) :
    roundAssoc (x :: t)
      = match relaxNode x, roundAssoc t with
        | some lx, some al => some ((x.index, lx) :: al)
        | _, _ => none := by
  show collectSome (fun node => (relaxNode node).map (fun l => (node.index, l))) (x :: t)
      = match relaxNode x,
          collectSome (fun node => (relaxNode node).map (fun l => (node.index, l))) t with
        | some lx, some al => some ((x.index, lx) :: al)
        | _, _ => none
  simp only [collectSome]
  cases hfx : relaxNode x with
  | none => rfl
  | some lx =>
      cases ht : collectSome (fun node => (relaxNode node).map (fun l => (node.index, l))) t with
      | none => rfl
      | some al => rfl

theorem lookupDvs_cons (b : Nat × List DVValue) (al : List (Nat × List DVValue)) (i : Nat) :
    lookupDvs (b :: al) i = if b.1 = i then some b.2 else lookupDvs al i := by
  by_cases hb : b.1 = i
  · simp [lookupDvs, List.find?, hb]
  · simp [lookupDvs, List.find?, hb]

theorem roundAssoc_perm : ∀ (l1 l2 : List Node), l1.Perm l2 →
    (l1.map (fun nd => nd.index)).Nodup →
    ∀ i, (roundAssoc l1).map (fun al => lookupDvs al i)
        = (roundAssoc l2).map (fun al => lookupDvs al i) := by
  intro l1 l2 h
  induction h with
  | nil => intro _ i; rfl
  | cons x hperm ih =>
      rename_i t1 t2
      intro hnodup i
      have hnd : (t1.map (fun nd => nd.index)).Nodup := by
        rw [List.map_cons] at hnodup
        exact (List.nodup_cons.mp hnodup).2
      have ih' := ih hnd
      cases hfx : relaxNode x with
      | none => rw [roundAssoc_eq, roundAssoc_eq, hfx]
      | some lx =>
          cases h1 : roundAssoc t1 with
          | none =>
              have h2 : roundAssoc t2 = none := by
                have h3 := ih' i
                rw [h1] at h3
                cases h4 : roundAssoc t2 with
                | none => rfl
                | some al2 => rw [h4] at h3; cases h3
              rw [roundAssoc_eq, roundAssoc_eq, hfx, h1, h2]
          | some al1 =>
              have h2 : ∃ al2, roundAssoc t2 = some al2
                  ∧ ∀ j, lookupDvs al1 j = lookupDvs al2 j := by
                cases h4 : roundAssoc t2 with
                | none =>
                    exfalso
                    have h3 := ih' i
                    rw [h1, h4] at h3
                    cases h3
                | some al2 =>
                    refine ⟨al2, rfl, ?_⟩
                    intro j
                    have h3 := ih' j
                    rw [h1, h4] at h3
                    exact Option.some.inj h3
              obtain ⟨al2, h2, hlk⟩ := h2
              have e1 : roundAssoc (x :: t1) = some ((x.index, lx) :: al1) := by
                rw [roundAssoc_eq, hfx, h1]
              have e2 : roundAssoc (x :: t2) = some ((x.index, lx) :: al2) := by
                rw [roundAssoc_eq, hfx, h2]
              rw [e1, e2]
              simp only [Option.map_some']
              rw [lookupDvs_cons, lookupDvs_cons]
              by_cases hxi : x.index = i
              · simp [hxi]
              · simp [hxi, hlk i]
  | swap x y l =>
      intro hnodup i
      have hxy : y.index ≠ x.index := by
        rw [List.map_cons, List.map_cons] at hnodup
        have h5 := (List.nodup_cons.mp hnodup).1
        intro hcon
        exact h5 (by rw [hcon]; exact List.mem_cons_self _ _)
      cases hfy : relaxNode y with
      | none =>
          cases hfx : relaxNode x with
          | none => rw [roundAssoc_eq, roundAssoc_eq, roundAssoc_eq, roundAssoc_eq, hfy, hfx]
          | some lx =>
              rw [roundAssoc_eq, roundAssoc_eq, roundAssoc_eq, roundAssoc_eq, hfy, hfx]
      | some ly =>
          cases hfx : relaxNode x with
          | none =>
              rw [roundAssoc_eq, roundAssoc_eq, roundAssoc_eq, roundAssoc_eq, hfy, hfx]
          | some lx =>
              cases hl : roundAssoc l with
              | none =>
                  rw [roundAssoc_eq, roundAssoc_eq, roundAssoc_eq, roundAssoc_eq,
                    hfy, hfx, hl]
              | some al =>
                  have e1 : roundAssoc (y :: x :: l)
                      = some ((y.index, ly) :: (x.index, lx) :: al) := by
                    rw [roundAssoc_eq, roundAssoc_eq, hfy, hfx, hl]
                  have e2 : roundAssoc (x :: y :: l)
                      = some ((x.index, lx) :: (y.index, ly) :: al) := by
                    rw [roundAssoc_eq, roundAssoc_eq, hfy, hfx, hl]
                  rw [e1, e2]
                  simp only [Option.map_some']
                  rw [lookupDvs_cons, lookupDvs_cons, lookupDvs_cons, lookupDvs_cons]
                  by_cases hyi : y.index = i
                  · have hxi : ¬ x.index = i := by
                      rw [← hyi]
                      intro hcon
                      exact hxy hcon.symm
                    simp [hyi, hxi]
                  · by_cases hxi : x.index = i
                    · simp [hyi, hxi]
                    · simp [hyi, hxi]
  | trans h12 h23 ih12 ih23 =>
      rename_i m1 m2 m3
      intro hnodup i
      have hnd2 : (m2.map (fun nd => nd.index)).Nodup :=
        ((h12.map (fun nd => nd.index)).nodup_iff).mp hnodup
      exact (ih12 hnodup i).trans (ih23 hnd2 i)

/-- C4: one round reads neighbor vectors exclusively from the frozen pre-round
inbox snapshots (`relaxNode` is a function of the processed node's own fields
alone), so the per-index round results are identical for every order in which
the nodes are processed: for any permutation of the node list, the accumulated
`new_dvs` table is the same function of node index. -/
theorem C4_theorem (w : World) (l' : List Node)
    (hperm : w.nodes.Perm l')
    (hnodup : (w.nodes.map (fun nd => nd.index)).Nodup) :
    ∀ i, (roundAssoc w.nodes).map (fun al => lookupDvs al i)
        = (roundAssoc l').map (fun al => lookupDvs al i) :=
  roundAssoc_perm w.nodes l' hperm hnodup

theorem C4_witness :
    triWorld.nodes.Perm triWorld.nodes.reverse
    ∧ (triWorld.nodes.map (fun nd => nd.index)).Nodup
    ∧ ∀ i, (roundAssoc triWorld.nodes).map (fun al => lookupDvs al i)
        = (roundAssoc triWorld.nodes.reverse).map (fun al => lookupDvs al i) :=
  ⟨by decide, by decide, C4_theorem triWorld triWorld.nodes.reverse (by decide) (by decide)⟩

/-- Node of index `i` (position `i` under the index invariant). -/
def nodeAt (w : World) (i : Nat) : Node := w.nodes.getD i dummyNode

theorem mem_neighborsOf (rel : Nat → Nat → Option Nat) (n count : Nat) (p : Nat × Nat) :
    p ∈ neighborsOf rel n count ↔ p.1 < count ∧ rel n p.1 = some p.2 := by
  simp only [neighborsOf, List.mem_filterMap, List.mem_range]
  constructor
  · rintro ⟨b, hb, hfb⟩
    cases hrel : rel n b with
    | none => rw [hrel] at hfb; cases hfb
    | some wt =>
        rw [hrel] at hfb
        have hbp : (b, wt) = p := Option.some.inj hfb
        subst hbp
        exact ⟨hb, hrel⟩
  · rintro ⟨hlt, hrel⟩
    exact ⟨p.1, hlt, by rw [hrel]; rfl⟩

theorem neighborsOf_congr (rel1 rel2 : Nat → Nat → Option Nat) (n count : Nat)
    (h : ∀ b, b < count → rel1 n b = rel2 n b) :
    neighborsOf rel1 n count = neighborsOf rel2 n count := by
  apply List.filterMap_congr
  intro b hb
  rw [h b (List.mem_range.mp hb)]

theorem lookup_neighborsOf (rel : Nat → Nat → Option Nat) (n : Nat) :
    ∀ (count b : Nat), b < count →
      (neighborsOf rel n count).find? (fun p => p.1 = b)
        = (rel n b).map (fun wt => (b, wt)) := by
  intro count
  induction count with
  | zero => intro b hb; cases hb
  | succ c ih =>
      intro b hb
      have hsplit : neighborsOf rel n (c + 1)
          = neighborsOf rel n c ++ ((rel n c).map (fun wt => (c, wt))).toList := by
        cases hrel : rel n c with
        | none =>
            simp [neighborsOf, List.range_succ, List.filterMap_append, hrel, Option.toList]
        | some wt =>
            simp [neighborsOf, List.range_succ, List.filterMap_append, hrel, Option.toList]
      rw [hsplit, List.find?_append]
      by_cases hbc : b < c
      · rw [ih b hbc]
        cases hrel : rel n b with
        | some wt => rfl
        | none =>
            simp only [Option.map_none', Option.none_or]
            apply List.find?_eq_none.mpr
            intro x hx
            cases hrc : rel n c with
            | none => rw [hrc] at hx; cases hx
            | some wt =>
                rw [hrc] at hx
                have hxe : x = (c, wt) := by simpa [Option.toList] using hx
                subst hxe
                simp only [decide_eq_true_eq]
                omega
      · have hbc2 : b = c := by omega
        subst hbc2
        have hnone : (neighborsOf rel n b).find? (fun p => p.1 = b) = none := by
          apply List.find?_eq_none.mpr
          intro x hx
          have hm := (mem_neighborsOf rel n b x).mp hx
          simp only [decide_eq_true_eq]
          omega
        rw [hnone, Option.none_or]
        cases hrel : rel n b with
        | none => rfl
        | some wt => simp [Option.toList, List.find?]

theorem find_index_shift : ∀ (l : List Node) (base : Nat),
    (∀ j, j < l.length → (l.getD j dummyNode).index = base + j) →
    ∀ i, i < l.length → l.find? (fun nd => nd.index = base + i) = l.get? i := by
  intro l
  induction l with
  | nil => intro base _ i hi; cases hi
  | cons x rest ih =>
      intro base hidx i hi
      have hx : x.index = base := by
        have h0 := hidx 0 (Nat.succ_pos _)
        simpa using h0
      cases i with
      | zero =>
          simp [List.find?, hx]
      | succ j =>
          have hxne : ¬ (x.index = base + (j + 1)) := by rw [hx]; omega
          have hfalse : decide (x.index = base + (j + 1)) = false := by
            simpa using hxne
          have hrest : ∀ k, k < rest.length → (rest.getD k dummyNode).index = (base + 1) + k := by
            intro k hk
            have h0 := hidx (k + 1) (by simpa using Nat.succ_lt_succ hk)
            rw [List.getD_cons_succ] at h0
            rw [h0]
            omega
          have hih := ih (base + 1) hrest j (by
            simpa using Nat.lt_of_succ_lt_succ (by simpa using hi))
          simp only [List.find?_cons, hfalse]
          have harith : base + (j + 1) = (base + 1) + j := by omega
          rw [harith, List.get?_cons_succ]
          exact hih

theorem find_by_index (w : World) (hwi : WellIndexed w) (i : Nat) (hi : i < w.nodes.length) :
    w.nodes.find? (fun nd => nd.index = i) = some (nodeAt w i) := by
  have h0 : ∀ j, j < w.nodes.length → (w.nodes.getD j dummyNode).index = 0 + j := by
    intro j hj
    rw [Nat.zero_add]
    exact hwi j hj
  have h1 := find_index_shift w.nodes 0 h0 i hi
  rw [Nat.zero_add i] at h1
  have h2 : w.nodes.get? i = some (nodeAt w i) := by
    rw [nodeAt, List.getD_eq_get?, List.get?_eq_get hi]
    rfl
  rw [h1, h2]

theorem baseRel_eq (w : World) (hwi : WellIndexed w) (i b : Nat) (hi : i < w.nodes.length) :
    baseRel w i b = ((nodeAt w i).connected.find? (fun p => p.1 = b)).map (fun p => p.2) := by
  unfold baseRel
  rw [find_by_index w hwi i hi]

/-- Structural invariant of every world the program builds: indices match
positions, vectors are square, each node's own entry is SameNode, connected
neighbors are in range, distinct from the node, and have a Distance entry in
the node's own vector, the connected list is exactly the (canonically ordered)
relations row, and the inbox pairs every connected neighbor with that
neighbor's current vector. -/
def WInv (w : World) : Prop :=
  WellIndexed w
  ∧ (∀ i, i < w.nodes.length → (nodeAt w i).dv.length = w.nodes.length)
  ∧ (∀ i, i < w.nodes.length → (nodeAt w i).dv.getD i DVValue.infinity = DVValue.sameNode)
  ∧ (∀ i, i < w.nodes.length → ∀ p ∈ (nodeAt w i).connected,
      p.1 < w.nodes.length ∧ p.1 ≠ i
        ∧ isDistance ((nodeAt w i).dv.getD p.1 DVValue.infinity) = true)
  ∧ (∀ i, i < w.nodes.length →
      (nodeAt w i).connected = neighborsOf (baseRel w) i w.nodes.length)
  ∧ (∀ i, i < w.nodes.length →
      (nodeAt w i).inbox = (nodeAt w i).connected.map (fun p => (p.1, (nodeAt w p.1).dv)))

instance (w : World) : Decidable (WInv w) := by
  unfold WInv
  infer_instance

theorem rebuild_length (rel : Nat → Nat → Option Nat) (dvs : List (List DVValue))
    (nodes : List Node) : (rebuild rel dvs nodes).length = nodes.length :=
  List.length_map _ _

theorem rebuild_nodeAt (rel : Nat → Nat → Option Nat) (dvs : List (List DVValue))
    (w : World) (g : Nat) (hwi : WellIndexed w) (i : Nat) (hi : i < w.nodes.length) :
    nodeAt { nodes := rebuild rel dvs w.nodes, generation := g } i
      = { nodeAt w i with
          dv := dvs.getD i []
          inbox := (neighborsOf rel i w.nodes.length).map
            (fun p => (p.1, dvs.getD p.1 []))
          connected := neighborsOf rel i w.nodes.length } := by
  have hn : w.nodes.get? i = some (nodeAt w i) := by
    rw [nodeAt, List.getD_eq_get?, List.get?_eq_get hi]
    rfl
  show (rebuild rel dvs w.nodes).getD i dummyNode = _
  rw [List.getD_eq_get?, rebuild_get?, hn]
  simp only [Option.map_some', Option.getD_some]
  have hidx : (nodeAt w i).index = i := hwi i hi
  rw [hidx]

theorem WInv_rebuild (w : World) (rel : Nat → Nat → Option Nat)
    (dvs : List (List DVValue)) (g : Nat)
    (hwi : WellIndexed w)
    (hrows : ∀ i, i < w.nodes.length → (dvs.getD i []).length = w.nodes.length)
    (hself : ∀ i, i < w.nodes.length →
        (dvs.getD i []).getD i DVValue.infinity = DVValue.sameNode)
    (hirr : ∀ i, i < w.nodes.length → rel i i = none)
    (hdist : ∀ i b wt, i < w.nodes.length → b < w.nodes.length → rel i b = some wt →
        isDistance ((dvs.getD i []).getD b DVValue.infinity) = true) :
    WInv { nodes := rebuild rel dvs w.nodes, generation := g } := by
  have hlen : ({ nodes := rebuild rel dvs w.nodes, generation := g } : World).nodes.length
      = w.nodes.length := rebuild_length rel dvs w.nodes
  have hwi2 : WellIndexed { nodes := rebuild rel dvs w.nodes, generation := g } := by
    intro i hi
    rw [hlen] at hi
    have h0 : nodeAt { nodes := rebuild rel dvs w.nodes, generation := g } i
        = _ := rebuild_nodeAt rel dvs w g hwi i hi
    show (nodeAt { nodes := rebuild rel dvs w.nodes, generation := g } i).index = i
    rw [h0]
    exact hwi i hi
  refine ⟨hwi2, ?_, ?_, ?_, ?_, ?_⟩
  · intro i hi
    rw [hlen] at hi ⊢
    rw [rebuild_nodeAt rel dvs w g hwi i hi]
    exact hrows i hi
  · intro i hi
    rw [hlen] at hi
    rw [rebuild_nodeAt rel dvs w g hwi i hi]
    exact hself i hi
  · intro i hi p hp
    rw [hlen] at hi
    rw [rebuild_nodeAt rel dvs w g hwi i hi] at hp ⊢
    have hm := (mem_neighborsOf rel i w.nodes.length p).mp hp
    rw [hlen]
    refine ⟨hm.1, ?_, ?_⟩
    · intro hcon
      rw [hcon] at hm
      rw [hirr i hi] at hm
      cases hm.2
    · exact hdist i p.1 p.2 hi hm.1 hm.2
  · intro i hi
    rw [hlen] at hi
    rw [rebuild_nodeAt rel dvs w g hwi i hi, hlen]
    have hrel : ∀ b, b < w.nodes.length →
        baseRel { nodes := rebuild rel dvs w.nodes, generation := g } i b = rel i b := by
      intro b hb
      rw [baseRel_eq _ hwi2 i b (by rw [hlen]; exact hi)]
      rw [rebuild_nodeAt rel dvs w g hwi i hi]
      show ((neighborsOf rel i w.nodes.length).find?
          (fun p => p.1 = b)).map (fun p => p.2) = rel i b
      rw [lookup_neighborsOf rel i w.nodes.length b hb]
      cases hr : rel i b with
      | none => rfl
      | some wt => rfl
    exact (neighborsOf_congr _ _ i w.nodes.length hrel).symm
  · intro i hi
    rw [hlen] at hi
    rw [rebuild_nodeAt rel dvs w g hwi i hi]
    apply List.map_congr_left
    intro p hp
    have hm := (mem_neighborsOf rel i w.nodes.length p).mp hp
    rw [rebuild_nodeAt rel dvs w g hwi p.1 hm.1]

theorem modifyDvGo_get? (b wt : Nat) : ∀ (l : List DVValue) (k j : Nat),
    (modifyDvGo b wt k l).get? j
      = (l.get? j).map (fun v => if k + j = b then DVValue.distance wt b else v) := by
  intro l
  induction l with
  | nil => intro k j; rfl
  | cons v rest ih =>
      intro k j
      cases j with
      | zero =>
          show some (if k = b then DVValue.distance wt b else v) = _
          rw [show (v :: rest).get? 0 = some v from rfl]
          rw [show k + 0 = k from rfl]
          rfl
      | succ j' =>
          show (modifyDvGo b wt (k + 1) rest).get? j' = _
          rw [ih (k + 1) j']
          rw [show (v :: rest).get? (j' + 1) = rest.get? j' from rfl]
          have harith : k + 1 + j' = k + (j' + 1) := by omega
          rw [harith]

theorem modify_dv_get? (row : List DVValue) (b wt j : Nat) :
    (modify_dv row b wt).get? j
      = (row.get? j).map (fun v => if j = b then DVValue.distance wt b else v) := by
  show (modifyDvGo b wt 0 row).get? j = _
  rw [modifyDvGo_get?]
  have harith : 0 + j = j := by omega
  rw [harith]

theorem modify_dv_getD_ne (row : List DVValue) (b wt j : Nat) (hj : j ≠ b) :
    (modify_dv row b wt).getD j DVValue.infinity = row.getD j DVValue.infinity := by
  rw [List.getD_eq_get?, List.getD_eq_get?, modify_dv_get?]
  cases hr : row.get? j with
  | none => rfl
  | some v => simp [hj]

theorem modify_dv_getD_self (row : List DVValue) (b wt : Nat) (hb : b < row.length) :
    (modify_dv row b wt).getD b DVValue.infinity = DVValue.distance wt b := by
  rw [List.getD_eq_get?, modify_dv_get?, List.get?_eq_get hb]
  simp

theorem modify_dv_length (row : List DVValue) (b wt : Nat) :
    (modify_dv row b wt).length = row.length :=
  modifyDvGo_length b wt row 0

theorem opDvs_cons (D : List (List DVValue)) (op : Operation) (rest : List Operation) :
    opDvs D (op :: rest) = opDvs (opDvs D [op]) rest := by
  cases op
  rfl

theorem opDvs_single_getD (D : List (List DVValue)) (a b wt i : Nat) :
    (opDvs D [Operation.changeWeight a b wt]).getD i []
      = (D.get? i).elim []
          (fun row =>
            if i = b then modify_dv (if i = a then modify_dv row b wt else row) a wt
            else if i = a then modify_dv row b wt else row) := by
  rw [List.getD_eq_get?, opDvs_single_get?]
  cases hD : D.get? i with
  | none => rfl
  | some row => rfl

/-- Joint invariant of a relations map and a vector table. -/
def DvsOk (rel : Nat → Nat → Option Nat) (D : List (List DVValue)) (count : Nat) : Prop :=
  (∀ i, i < count → (D.getD i []).length = count)
  ∧ (∀ i, i < count → (D.getD i []).getD i DVValue.infinity = DVValue.sameNode)
  ∧ (∀ i, i < count → rel i i = none)
  ∧ (∀ i b wt, i < count → b < count → rel i b = some wt →
      isDistance ((D.getD i []).getD b DVValue.infinity) = true)

theorem row_of_some (D : List (List DVValue)) (i : Nat) (row : List DVValue)
    (hD : D.get? i = some row) : D.getD i [] = row := by
  rw [List.getD_eq_get?, hD]
  rfl

theorem opSingle_ok (a b wt count : Nat) (hab : a ≠ b) (rel : Nat → Nat → Option Nat)
    (D : List (List DVValue)) (h : DvsOk rel D count) :
    DvsOk (opRelations rel [Operation.changeWeight a b wt])
      (opDvs D [Operation.changeWeight a b wt]) count := by
  obtain ⟨hrows, hself, hirr, hdist⟩ := h
  have hrel : ∀ x y, opRelations rel [Operation.changeWeight a b wt] x y
      = if ((x = a ∧ y = b) ∨ (x = b ∧ y = a)) then some wt else rel x y := fun x y => rfl
  have hsome_row : ∀ i, i < count → ∃ row, D.get? i = some row ∧ row.length = count := by
    intro i hi
    cases hD : D.get? i with
    | none =>
        exfalso
        have h1 := hrows i hi
        rw [List.getD_eq_get?, hD] at h1
        have h2 : (0 : Nat) = count := h1
        omega
    | some row =>
        refine ⟨row, rfl, ?_⟩
        have h1 := hrows i hi
        rw [row_of_some D i row hD] at h1
        exact h1
  refine ⟨?_, ?_, ?_, ?_⟩
  · intro i hi
    obtain ⟨row, hD, hrl⟩ := hsome_row i hi
    rw [opDvs_single_getD, hD]
    simp only [Option.elim]
    by_cases hib : i = b
    · by_cases hia : i = a
      · exact absurd (by omega : a = b) hab
      · have hba : ¬ b = a := by omega
        simp [hib, hia, hba, modify_dv_length, hrl]
    · by_cases hia : i = a
      · simp [hib, hia, hab, modify_dv_length, hrl]
      · simp [hib, hia, hrl]
  · intro i hi
    obtain ⟨row, hD, hrl⟩ := hsome_row i hi
    have hsf := hself i hi
    rw [row_of_some D i row hD] at hsf
    rw [opDvs_single_getD, hD]
    simp only [Option.elim]
    by_cases hib : i = b
    · subst hib
      have hia : i ≠ a := fun hcon => hab hcon.symm
      rw [if_pos rfl, if_neg hia]
      rw [modify_dv_getD_ne row a wt i hia]
      exact hsf
    · rw [if_neg hib]
      by_cases hia : i = a
      · subst hia
        rw [if_pos rfl]
        rw [modify_dv_getD_ne row b wt i hib]
        exact hsf
      · rw [if_neg hia]
        exact hsf
  · intro i hi
    rw [hrel i i, if_neg]
    · exact hirr i hi
    · rintro (⟨h1, h2⟩ | ⟨h1, h2⟩) <;> exact hab (by omega)
  · intro i b' wt' hi hb' hsome
    rw [hrel i b'] at hsome
    obtain ⟨row, hD, hrl⟩ := hsome_row i hi
    rw [opDvs_single_getD, hD]
    by_cases hcond : ((i = a ∧ b' = b) ∨ (i = b ∧ b' = a))
    · rcases hcond with ⟨hia, hbb⟩ | ⟨hib, hba⟩
      · simp only [Option.elim]
        rw [if_neg (by omega : ¬ i = b), if_pos hia]
        rw [hbb, modify_dv_getD_self row b wt (by omega)]
        rfl
      · simp only [Option.elim]
        rw [if_pos hib]
        rw [if_neg (by omega : ¬ i = a)]
        rw [hba, modify_dv_getD_self row a wt (by omega)]
        rfl
    · rw [if_neg hcond] at hsome
      have hold := hdist i b' wt' hi hb' hsome
      rw [row_of_some D i row hD] at hold
      simp only [Option.elim]
      by_cases hib : i = b
      · rw [if_pos hib, if_neg (by omega : ¬ i = a)]
        rw [modify_dv_getD_ne _ _ _ _ (by
          intro hcon
          exact hcond (Or.inr ⟨hib, hcon⟩))]
        exact hold
      · rw [if_neg hib]
        by_cases hia : i = a
        · rw [if_pos hia]
          rw [modify_dv_getD_ne _ _ _ _ (by
            intro hcon
            exact hcond (Or.inl ⟨hia, hcon⟩))]
          exact hold
        · rw [if_neg hia]
          exact hold

/-- An operation between two distinct endpoints (an edge of the graph). -/
def opDistinct : Operation → Prop
  | Operation.changeWeight a b _ => a ≠ b

theorem opsOk : ∀ (ops : List Operation) (rel : Nat → Nat → Option Nat)
    (D : List (List DVValue)) (count : Nat),
    (∀ op ∈ ops, opDistinct op) → DvsOk rel D count →
    DvsOk (opRelations rel ops) (opDvs D ops) count := by
  intro ops
  induction ops with
  | nil => intro rel D count _ h; exact h
  | cons op rest ih =>
      intro rel D count hd h
      cases op with
      | changeWeight a b wt =>
          have hab : a ≠ b := hd (Operation.changeWeight a b wt) (List.mem_cons_self _ _)
          rw [opDvs_cons]
          have h1 := opSingle_ok a b wt count hab rel D h
          have hrel : opRelations rel (Operation.changeWeight a b wt :: rest)
              = opRelations (opRelations rel [Operation.changeWeight a b wt]) rest := rfl
          rw [hrel]
          exact ih _ _ count (fun o ho => hd o (List.mem_cons_of_mem _ ho)) h1

theorem nodeAt_get? (w : World) (i : Nat) (hi : i < w.nodes.length) :
    w.nodes.get? i = some (nodeAt w i) := by
  rw [nodeAt, List.getD_eq_get?, List.get?_eq_get hi]
  rfl

theorem DvsOk_of_WInv (w : World) (h : WInv w) :
    DvsOk (baseRel w) (w.nodes.map (fun nd => nd.dv)) w.nodes.length := by
  obtain ⟨hwi, hlen2, hself, hconn, hcanon, hinbox⟩ := h
  have hgetD : ∀ i, i < w.nodes.length →
      ((w.nodes.map (fun nd => nd.dv)).getD i []) = (nodeAt w i).dv := by
    intro i hi
    rw [List.getD_eq_get?, List.get?_map, nodeAt_get? w i hi]
    rfl
  refine ⟨?_, ?_, ?_, ?_⟩
  · intro i hi
    rw [hgetD i hi]
    exact hlen2 i hi
  · intro i hi
    rw [hgetD i hi]
    exact hself i hi
  · intro i hi
    rw [baseRel_eq w hwi i i hi]
    have hnone : (nodeAt w i).connected.find? (fun p => p.1 = i) = none := by
      apply List.find?_eq_none.mpr
      intro p hp
      have h4 := hconn i hi p hp
      simp only [decide_eq_true_eq]
      exact h4.2.1
    rw [hnone]
    rfl
  · intro i b wt hi hb hrel
    rw [hgetD i hi]
    rw [baseRel_eq w hwi i b hi] at hrel
    cases hf : (nodeAt w i).connected.find? (fun p => p.1 = b) with
    | none => rw [hf] at hrel; cases hrel
    | some p =>
        rw [hf] at hrel
        have hmem := List.mem_of_find?_eq_some hf
        have hpb : p.1 = b := by simpa using List.find?_some hf
        have h4 := hconn i hi p hmem
        rw [hpb] at h4
        exact h4.2.2

theorem WInv_apply (w : World) (ops : List Operation) (h : WInv w)
    (hd : ∀ op ∈ ops, opDistinct op) : WInv (w.apply_operations ops) := by
  have hok := opsOk ops (baseRel w) (w.nodes.map (fun nd => nd.dv)) w.nodes.length hd
    (DvsOk_of_WInv w h)
  obtain ⟨hrows, hself2, hirr, hdist⟩ := hok
  have happ : w.apply_operations ops
      = { nodes := rebuild (opRelations (baseRel w) ops)
            (opDvs (w.nodes.map (fun nd => nd.dv)) ops) w.nodes
          generation := w.generation } := rfl
  rw [happ]
  exact WInv_rebuild w _ _ w.generation h.1 hrows hself2 hirr hdist

theorem nodeAt_new (names : List String) (i : Nat) (hi : i < names.length) :
    nodeAt (World.new names) i
      = { name := (names.get? i).getD ("")
          dv := (List.range names.length).map (fun j =>
            if j = i then DVValue.sameNode else DVValue.infinity)
          inbox := []
          index := i
          connected := [] } := by
  show ((List.range names.length).map _).getD i dummyNode = _
  rw [List.getD_eq_get?, List.get?_map, List.get?_range hi]
  rfl

theorem newWorld_length (names : List String) :
    (World.new names).nodes.length = names.length := by
  show ((List.range names.length).map _).length = _
  rw [List.length_map, List.length_range]

theorem WInv_new (names : List String) : WInv (World.new names) := by
  have hlen := newWorld_length names
  have hwi : WellIndexed (World.new names) := by
    intro i hi
    rw [hlen] at hi
    show (nodeAt (World.new names) i).index = i
    rw [nodeAt_new names i hi]
  refine ⟨hwi, ?_, ?_, ?_, ?_, ?_⟩
  · intro i hi
    rw [hlen] at hi
    rw [nodeAt_new names i hi, hlen]
    show ((List.range names.length).map _).length = _
    rw [List.length_map, List.length_range]
  · intro i hi
    rw [hlen] at hi
    rw [nodeAt_new names i hi]
    show ((List.range names.length).map
      (fun j => if j = i then DVValue.sameNode else DVValue.infinity)).getD i DVValue.infinity = _
    rw [List.getD_eq_get?, List.get?_map, List.get?_range hi]
    simp
  · intro i hi p hp
    rw [hlen] at hi
    rw [nodeAt_new names i hi] at hp
    cases hp
  · intro i hi
    rw [hlen] at hi
    rw [nodeAt_new names i hi]
    have hnone : ∀ b, b < (World.new names).nodes.length → baseRel (World.new names) i b = none := by
      intro b hb
      rw [baseRel_eq (World.new names) hwi i b (by rw [hlen]; exact hi)]
      rw [nodeAt_new names i hi]
      rfl
    show ([] : List (Nat × Nat)) = _
    symm
    apply List.filterMap_eq_nil.mpr
    intro b hb
    rw [hnone b (List.mem_range.mp hb)]
    rfl
  · intro i hi
    rw [hlen] at hi
    rw [nodeAt_new names i hi]
    rfl

theorem collectSome_length (f : α → Option β) :
    ∀ (l : List α) (out : List β), collectSome f l = some out → out.length = l.length := by
  intro l
  induction l with
  | nil =>
      intro out h
      cases (Option.some.inj h)
      rfl
  | cons x rest ih =>
      intro out h
      obtain ⟨b, l', _, hrest, rfl⟩ := collectSome_cons f x rest out h
      simp [ih l' hrest]

theorem collectSome_get? (f : α → Option β) :
    ∀ (l : List α) (out : List β), collectSome f l = some out →
      ∀ i a, l.get? i = some a → f a = out.get? i := by
  intro l
  induction l with
  | nil => intro out _ i a ha; cases ha
  | cons x rest ih =>
      intro out h i a ha
      obtain ⟨b, l', hfx, hrest, rfl⟩ := collectSome_cons f x rest out h
      cases i with
      | zero =>
          have : x = a := Option.some.inj ha
          subst this
          exact hfx
      | succ i' => exact ih l' hrest i' a ha

theorem relaxDv_length (node : Node) (dc : List (Nat × Nat)) :
    ∀ (lst : List DVValue) (k : Nat) (out : List DVValue),
      relaxDv node dc k lst = some out → out.length = lst.length := by
  intro lst
  induction lst with
  | nil =>
      intro k out h
      cases (Option.some.inj h)
      rfl
  | cons x rest ih =>
      intro k out h
      simp only [relaxDv] at h
      split at h
      · rename_i hv ht
        cases (Option.some.inj h)
        simp [ih (k + 1) _ ht]
      · cases h

theorem relaxDv_get? (node : Node) (dc : List (Nat × Nat)) :
    ∀ (lst : List DVValue) (k : Nat) (out : List DVValue),
      relaxDv node dc k lst = some out → ∀ j, j < lst.length →
        (if k + j = node.index then some DVValue.sameNode else relaxEntry node dc (k + j))
          = out.get? j := by
  intro lst
  induction lst with
  | nil => intro k out _ j hj; cases hj
  | cons x rest ih =>
      intro k out h j hj
      simp only [relaxDv] at h
      split at h
      · rename_i hv ht
        cases (Option.some.inj h)
        cases j with
        | zero =>
            show (if k + 0 = node.index then _ else _) = _
            rw [Nat.add_zero]
            exact hv
        | succ j' =>
            have harith : k + (j' + 1) = (k + 1) + j' := by omega
            rw [harith]
            exact ih (k + 1) _ ht j' (by simpa using Nat.lt_of_succ_lt_succ hj)
      · cases h

theorem relaxDv_some (node : Node) (dc : List (Nat × Nat)) :
    ∀ (lst : List DVValue) (k : Nat),
      (∀ j, j < lst.length → k + j ≠ node.index →
        ∃ v, relaxEntry node dc (k + j) = some v) →
      ∃ out, relaxDv node dc k lst = some out := by
  intro lst
  induction lst with
  | nil => intro k _; exact ⟨[], rfl⟩
  | cons x rest ih =>
      intro k h
      have hhead : ∃ hv, (if k = node.index then some DVValue.sameNode
          else relaxEntry node dc k) = some hv := by
        by_cases hk : k = node.index
        · exact ⟨DVValue.sameNode, by simp [hk]⟩
        · obtain ⟨v, hv⟩ := h 0 (by simp) (by simpa using hk)
          rw [Nat.add_zero] at hv
          exact ⟨v, by simp [hk, hv]⟩
      obtain ⟨hv0, hvh⟩ := hhead
      obtain ⟨t, ht⟩ := ih (k + 1) (fun j hj hne => by
        have harith : k + (j + 1) = (k + 1) + j := by omega
        obtain ⟨v, hv⟩ := h (j + 1) (by simpa using Nat.succ_lt_succ hj) (by omega)
        rw [harith] at hv
        exact ⟨v, hv⟩)
      exact ⟨hv0 :: t, by simp [relaxDv, hvh, ht]⟩

theorem candsOf_some (dc : List (Nat × Nat)) (d : Nat) :
    ∀ inb : List (Nat × List DVValue),
      (∀ q ∈ inb, ∃ o, candOf dc d q = some o) →
      ∃ cs, candsOf dc d inb = some cs := by
  intro inb
  induction inb with
  | nil => intro _; exact ⟨[], rfl⟩
  | cons q rest ih =>
      intro h
      obtain ⟨o, ho⟩ := h q (List.mem_cons_self _ _)
      obtain ⟨cs, hcs⟩ := ih (fun a ha => h a (List.mem_cons_of_mem _ ha))
      cases o with
      | none => exact ⟨cs, by simp [candsOf, ho, hcs]⟩
      | some mc => exact ⟨mc :: cs, by simp [candsOf, ho, hcs]⟩

theorem candsOf_mem (dc : List (Nat × Nat)) (d : Nat) :
    ∀ (inb : List (Nat × List DVValue)) (cs : List (Nat × Nat)) (q : Nat × List DVValue)
      (mc : Nat × Nat), candsOf dc d inb = some cs → q ∈ inb →
      candOf dc d q = some (some mc) → mc ∈ cs := by
  intro inb
  induction inb with
  | nil => intro cs q mc _ hq; cases hq
  | cons x rest ih =>
      intro cs q mc h hq hcand
      simp only [candsOf] at h
      split at h
      · cases h
      · cases h
      · rename_i hx hrest
        cases hq with
        | head =>
            rw [hcand] at hx
            cases hx
        | tail _ hq' =>
            have hcs : candsOf dc d rest = some cs := by rw [hrest]; exact h
            exact ih cs q mc hcs hq' hcand
      · rename_i mcx csr hx hrest
        cases (Option.some.inj h)
        cases hq with
        | head =>
            rw [hcand] at hx
            have : mc = mcx := by
              have := Option.some.inj (Option.some.inj hx)
              exact this
            rw [this]
            exact List.mem_cons_self _ _
        | tail _ hq' => exact List.mem_cons_of_mem _ (ih csr q mc hrest hq' hcand)

theorem candsOf_mem_inv (dc : List (Nat × Nat)) (d : Nat) :
    ∀ (inb : List (Nat × List DVValue)) (cs : List (Nat × Nat)) (mc : Nat × Nat),
      candsOf dc d inb = some cs → mc ∈ cs →
      ∃ q ∈ inb, candOf dc d q = some (some mc) := by
  intro inb
  induction inb with
  | nil =>
      intro cs mc h hmc
      cases (Option.some.inj h)
      cases hmc
  | cons x rest ih =>
      intro cs mc h hmc
      simp only [candsOf] at h
      split at h
      · cases h
      · cases h
      · rename_i hx hrest
        rw [(Option.some.inj h)] at hrest
        obtain ⟨q, hq, hc⟩ := ih cs mc hrest hmc
        exact ⟨q, List.mem_cons_of_mem _ hq, hc⟩
      · rename_i mcx csr hx hrest
        cases (Option.some.inj h)
        cases hmc with
        | head => exact ⟨x, List.mem_cons_self _ _, hx⟩
        | tail _ hmc' =>
            obtain ⟨q, hq, hc⟩ := ih csr mc hrest hmc'
            exact ⟨q, List.mem_cons_of_mem _ hq, hc⟩

theorem isDistance_shape (v : DVValue) (h : isDistance v = true) :
    ∃ wv vi, v = DVValue.distance wv vi := by
  cases v with
  | infinity => cases h
  | distance wv vi => exact ⟨wv, vi, rfl⟩
  | sameNode => cases h

theorem get?_of_getD {α : Type _} (l : List α) (i : Nat) (d : α) (hi : i < l.length) :
    l.get? i = some (l.getD i d) := by
  rw [List.getD_eq_get?, List.get?_eq_get hi]
  rfl

theorem baseRel_irrefl (w : World) (h : WInv w) (i : Nat) (hi : i < w.nodes.length) :
    baseRel w i i = none := by
  rw [baseRel_eq w h.1 i i hi]
  have hnone : (nodeAt w i).connected.find? (fun p => p.1 = i) = none := by
    apply List.find?_eq_none.mpr
    intro p hp
    simp only [decide_eq_true_eq]
    exact (h.2.2.2.1 i hi p hp).2.1
  rw [hnone]
  rfl

theorem baseRel_conn (w : World) (h : WInv w) (i b wt : Nat) (hi : i < w.nodes.length)
    (hrel : baseRel w i b = some wt) :
    ∃ p ∈ (nodeAt w i).connected, p.1 = b ∧ p.2 = wt := by
  rw [baseRel_eq w h.1 i b hi] at hrel
  cases hf : (nodeAt w i).connected.find? (fun p => p.1 = b) with
  | none => rw [hf] at hrel; cases hrel
  | some p =>
      rw [hf, Option.map_some'] at hrel
      exact ⟨p, List.mem_of_find?_eq_some hf, by simpa using List.find?_some hf,
        Option.some.inj hrel⟩

theorem conn_dv_distance (w : World) (h : WInv w) (i : Nat) (hi : i < w.nodes.length) :
    ∀ p ∈ (nodeAt w i).connected,
      ∃ dw via, (nodeAt w i).dv.get? p.1 = some (DVValue.distance dw via) := by
  intro p hp
  have h4 := h.2.2.2.1 i hi p hp
  obtain ⟨wv, vi, hv⟩ := isDistance_shape _ h4.2.2
  have hget : (nodeAt w i).dv.get? p.1
      = some ((nodeAt w i).dv.getD p.1 DVValue.infinity) :=
    get?_of_getD _ _ _ (by rw [h.2.1 i hi]; exact h4.1)
  exact ⟨wv, vi, by rw [hget, hv]⟩

theorem dcList_some (w : World) (h : WInv w) (i : Nat) (hi : i < w.nodes.length) :
    ∃ dc, dcList (nodeAt w i) = some dc := by
  unfold dcList
  apply collectSome_all_some
  intro p hp
  obtain ⟨dw, via, hget⟩ := conn_dv_distance w h i hi p hp
  have hget2 : (nodeAt w i).dv[p.1]? = some (DVValue.distance dw via) := by
    rw [← List.get?_eq_getElem?]
    exact hget
  exact ⟨(p.1, dw), by simp [hget2]⟩

theorem dc_of_conn (w : World) (h : WInv w) (i : Nat) (hi : i < w.nodes.length)
    (dc : List (Nat × Nat)) (hdc : dcList (nodeAt w i) = some dc) :
    ∀ p ∈ (nodeAt w i).connected,
      ∃ dw via, (nodeAt w i).dv.get? p.1 = some (DVValue.distance dw via)
        ∧ lookupW dc p.1 = some dw := by
  intro p hp
  obtain ⟨dw, via, hget⟩ := conn_dv_distance w h i hi p hp
  refine ⟨dw, via, hget, ?_⟩
  exact dcList_lookup (nodeAt w i) (nodeAt w i).connected dc hdc p.1 dw via hget ⟨p, hp, rfl⟩

theorem candOf_total (dc : List (Nat × Nat)) (d : Nat) (q : Nat × List DVValue)
    (dw : Nat) (hlook : lookupW dc q.1 = some dw) (hd : d < q.2.length) :
    ∃ o, candOf dc d q = some o := by
  have hget : q.2.get? d = some (q.2.getD d DVValue.infinity) := get?_of_getD _ _ _ hd
  unfold candOf
  rw [hlook, hget]
  cases hv : q.2.getD d DVValue.infinity with
  | infinity => exact ⟨none, rfl⟩
  | distance wv vi => exact ⟨some (q.1, wv + dw), rfl⟩
  | sameNode => exact ⟨some (q.1, dw), rfl⟩

theorem inbox_candOf_some (w : World) (h : WInv w) (i : Nat) (hi : i < w.nodes.length)
    (dc : List (Nat × Nat)) (hdc : dcList (nodeAt w i) = some dc) (d : Nat)
    (hd : d < w.nodes.length) :
    ∀ q ∈ (nodeAt w i).inbox, ∃ o, candOf dc d q = some o := by
  intro q hq
  rw [h.2.2.2.2.2 i hi] at hq
  obtain ⟨p, hp, rfl⟩ := List.mem_map.mp hq
  obtain ⟨dw, via, hget, hlook⟩ := dc_of_conn w h i hi dc hdc p hp
  have hplen : p.1 < w.nodes.length := (h.2.2.2.1 i hi p hp).1
  have hlen : (nodeAt w p.1).dv.length = w.nodes.length := h.2.1 p.1 hplen
  refine candOf_total dc d (p.1, (nodeAt w p.1).dv) dw hlook ?_
  show d < (nodeAt w p.1).dv.length
  rw [hlen]
  exact hd

theorem relaxEntry_some (node : Node) (dc : List (Nat × Nat)) (d : Nat)
    (h : ∀ q ∈ node.inbox, ∃ o, candOf dc d q = some o) :
    ∃ cs, candsOf dc d node.inbox = some cs
      ∧ relaxEntry node dc d = some (pickMinFirst cs) := by
  obtain ⟨cs, hcs⟩ := candsOf_some dc d node.inbox h
  refine ⟨cs, hcs, ?_⟩
  show relaxFold dc d node.inbox DVValue.infinity = _
  rw [relaxFold_eq, hcs]
  rfl

theorem relaxNode_inv (node : Node) (out : List DVValue) (h : relaxNode node = some out) :
    ∃ dc, dcList node = some dc ∧ relaxDv node dc 0 node.dv = some out := by
  unfold relaxNode at h
  cases hdc : dcList node with
  | none => rw [hdc] at h; cases h
  | some dc => rw [hdc] at h; exact ⟨dc, rfl, h⟩

theorem relaxNode_some (w : World) (h : WInv w) (i : Nat) (hi : i < w.nodes.length) :
    ∃ out, relaxNode (nodeAt w i) = some out := by
  obtain ⟨dc, hdc⟩ := dcList_some w h i hi
  have hdv : ∃ out, relaxDv (nodeAt w i) dc 0 (nodeAt w i).dv = some out := by
    apply relaxDv_some
    intro j hj hne
    rw [Nat.zero_add]
    have hjlen : j < w.nodes.length := by rw [← h.2.1 i hi]; exact hj
    obtain ⟨cs, _, hre⟩ := relaxEntry_some (nodeAt w i) dc j
      (inbox_candOf_some w h i hi dc hdc j hjlen)
    exact ⟨_, hre⟩
  obtain ⟨out, hout⟩ := hdv
  refine ⟨out, ?_⟩
  unfold relaxNode
  rw [hdc]
  exact hout

theorem roundDvs_some (w : World) (h : WInv w) : ∃ nds, roundDvs w = some nds := by
  unfold roundDvs
  apply collectSome_all_some
  intro node hnode
  obtain ⟨i, hget⟩ := List.mem_iff_get?.mp hnode
  obtain ⟨hi, _⟩ := List.get?_eq_some.mp hget
  have hnodeAt : nodeAt w i = node := by
    rw [nodeAt, List.getD_eq_get?, hget]
    rfl
  rw [← hnodeAt]
  exact relaxNode_some w h i hi

theorem roundDvs_facts (w : World) (nds : List (List DVValue))
    (h : roundDvs w = some nds) (i : Nat) (hi : i < w.nodes.length) :
    nds.length = w.nodes.length ∧ relaxNode (nodeAt w i) = some (nds.getD i []) := by
  have hlen := collectSome_length relaxNode w.nodes nds h
  refine ⟨hlen, ?_⟩
  have hget := collectSome_get? relaxNode w.nodes nds h i (nodeAt w i) (nodeAt_get? w i hi)
  rw [hget]
  exact get?_of_getD nds i [] (by rw [hlen]; exact hi)

theorem relaxRow_facts (w : World) (h : WInv w) (i : Nat) (hi : i < w.nodes.length)
    (row : List DVValue) (hrow : relaxNode (nodeAt w i) = some row) :
    row.length = w.nodes.length
    ∧ row.getD i DVValue.infinity = DVValue.sameNode
    ∧ ∀ b wt, b < w.nodes.length → baseRel w i b = some wt →
        isDistance (row.getD b DVValue.infinity) = true := by
  obtain ⟨dc, hdc, hdv⟩ := relaxNode_inv (nodeAt w i) row hrow
  have hdvlen : (nodeAt w i).dv.length = w.nodes.length := h.2.1 i hi
  have hidx : (nodeAt w i).index = i := h.1 i hi
  have hrowlen : row.length = w.nodes.length := by
    rw [relaxDv_length (nodeAt w i) dc (nodeAt w i).dv 0 row hdv]
    exact hdvlen
  refine ⟨hrowlen, ?_, ?_⟩
  · have hpos := relaxDv_get? (nodeAt w i) dc (nodeAt w i).dv 0 row hdv i
      (by rw [hdvlen]; exact hi)
    rw [Nat.zero_add, hidx, if_pos rfl] at hpos
    rw [List.getD_eq_get?, ← hpos]
    rfl
  · intro b wt hb hrel
    obtain ⟨p, hp, hpb0, hpwt⟩ := baseRel_conn w h i b wt hi hrel
    obtain ⟨pb, pw⟩ := p
    have hpb : pb = b := hpb0
    subst pb
    have hbne : b ≠ i := (h.2.2.2.1 i hi (b, pw) hp).2.1
    have hpos := relaxDv_get? (nodeAt w i) dc (nodeAt w i).dv 0 row hdv b
      (by rw [hdvlen]; exact hb)
    rw [Nat.zero_add, hidx, if_neg hbne] at hpos
    obtain ⟨cs, hcs, hre⟩ := relaxEntry_some (nodeAt w i) dc b
      (inbox_candOf_some w h i hi dc hdc b hb)
    have hqmem : (b, (nodeAt w b).dv) ∈ (nodeAt w i).inbox := by
      rw [h.2.2.2.2.2 i hi]
      exact List.mem_map.mpr ⟨(b, pw), hp, rfl⟩
    obtain ⟨dw, via, hget, hlook⟩ := dc_of_conn w h i hi dc hdc (b, pw) hp
    have hblen : (nodeAt w b).dv.length = w.nodes.length := h.2.1 b hb
    have hbself : (nodeAt w b).dv.getD b DVValue.infinity = DVValue.sameNode := h.2.2.1 b hb
    have hbget : (nodeAt w b).dv.get? b = some DVValue.sameNode := by
      rw [get?_of_getD _ b DVValue.infinity (by rw [hblen]; exact hb), hbself]
    have hcand : candOf dc b (b, (nodeAt w b).dv) = some (some (b, dw)) := by
      unfold candOf
      simp only [hlook, hbget]
    have hmc : (b, dw) ∈ cs := candsOf_mem dc b (nodeAt w i).inbox cs _ _ hcs hqmem hcand
    have hcsne : cs ≠ [] := by
      intro hemp
      rw [hemp] at hmc
      cases hmc
    have hpick : ∃ r, pickFirstMin cs = some r := by
      cases hpf : pickFirstMin cs with
      | none => exact absurd ((pickFirstMin_none cs).mp hpf) hcsne
      | some r => exact ⟨r, rfl⟩
    obtain ⟨r, hr⟩ := hpick
    have hentry : pickMinFirst cs = DVValue.distance r.2 r.1 := by
      rw [pickMinFirst_eq, hr]
    have hrowb : row.get? b = some (DVValue.distance r.2 r.1) := by
      rw [← hpos, hre, hentry]
    rw [List.getD_eq_get?, hrowb]
    rfl

theorem WInv_commit (w : World) (nds : List (List DVValue)) (h : WInv w)
    (hr : roundDvs w = some nds) : WInv (commitWorld w nds) := by
  have happ : commitWorld w nds
      = { nodes := rebuild (baseRel w) nds w.nodes
          generation := w.generation + 1 } := rfl
  rw [happ]
  apply WInv_rebuild w (baseRel w) nds (w.generation + 1) h.1
  · intro i hi
    obtain ⟨_, hrowi⟩ := roundDvs_facts w nds hr i hi
    exact (relaxRow_facts w h i hi _ hrowi).1
  · intro i hi
    obtain ⟨_, hrowi⟩ := roundDvs_facts w nds hr i hi
    exact (relaxRow_facts w h i hi _ hrowi).2.1
  · intro i hi
    exact baseRel_irrefl w h i hi
  · intro i b wt hi hb hrel
    obtain ⟨_, hrowi⟩ := roundDvs_facts w nds hr i hi
    exact (relaxRow_facts w h i hi _ hrowi).2.2 b wt hb hrel

theorem run_simulation_changed_inv (w w' : World)
    (h : w.run_simulation = some (NewState.changed w')) :
    ∃ nds, roundDvs w = some nds ∧ w' = commitWorld w nds := by
  unfold World.run_simulation at h
  cases hr : roundDvs w with
  | none => rw [hr] at h; cases h
  | some nds =>
      rw [hr] at h
      have h2 : (if changedSet w nds = [] then some NewState.notChanged
          else some (NewState.changed (commitWorld w nds))) = some (NewState.changed w') := h
      by_cases hc : changedSet w nds = []
      · rw [if_pos hc] at h2
        cases h2
      · rw [if_neg hc] at h2
        exact ⟨nds, rfl, (NewState.changed.inj (Option.some.inj h2)).symm⟩

/-- Worlds reachable by the program: construction, mutation batches whose
operations join distinct endpoints, and committed relaxation rounds. -/
inductive Reachable : World → Prop where
  | base (names : List String) : Reachable (World.new names)
  | mutate (w : World) (ops : List Operation) (hw : Reachable w)
      (hd : ∀ op ∈ ops, opDistinct op) : Reachable (w.apply_operations ops)
  | relax (w w' : World) (hw : Reachable w)
      (hrun : w.run_simulation = some (NewState.changed w')) : Reachable w'

theorem Reachable_WInv (w : World) (h : Reachable w) : WInv w := by
  induction h with
  | base names => exact WInv_new names
  | mutate w ops hw hd ih => exact WInv_apply w ops ih hd
  | relax w w' hw hrun ih =>
      obtain ⟨nds, hr, hcommit⟩ := run_simulation_changed_inv w w' hrun
      rw [hcommit]
      exact WInv_commit w nds ih hr

/-- C8: in every World reachable from construction via edge-weight mutations
(between distinct endpoints) and committed relaxation rounds, every node's
distance-vector entry at its own index is `SameNode` (the Self/zero-cost
value). -/
theorem C8_theorem (w : World) (h : Reachable w) (n : Nat) (hn : n < w.nodes.length) :
    entryOf w n n = DVValue.sameNode := by
  have hw := Reachable_WInv w h
  exact hw.2.2.1 n hn

theorem C8_witness :
    entryOf (World.new (("A") :: ("B") :: [])) 0 0 = DVValue.sameNode :=
  C8_theorem (World.new (("A") :: ("B") :: [])) (Reachable.base _) 0 (by decide)

/-- C10: in every World reachable from construction via edge operations with
distinct endpoints and committed relaxation rounds, every connected-neighbor
entry of a node's vector is a finite `Distance` value, and the direct-cost
collection at the start of a round (which panics on any other variant)
succeeds. -/
theorem C10_theorem (w : World) (h : Reachable w) (n : Nat) (hn : n < w.nodes.length) :
    (∀ p ∈ (nodeAt w n).connected, isDistance (entryOf w n p.1) = true)
      ∧ ∃ dc, dcList (nodeAt w n) = some dc := by
  have hw := Reachable_WInv w h
  constructor
  · intro p hp
    exact (hw.2.2.2.1 n hn p hp).2.2
  · exact dcList_some w hw n hn

theorem C10_witness :
    (∀ p ∈ (nodeAt ((World.new (("A") :: ("B") :: [])).apply_operations
        (Operation.changeWeight 0 1 5 :: [])) 0).connected,
      isDistance (entryOf ((World.new (("A") :: ("B") :: [])).apply_operations
        (Operation.changeWeight 0 1 5 :: [])) 0 p.1) = true)
    ∧ ∃ dc, dcList (nodeAt ((World.new (("A") :: ("B") :: [])).apply_operations
        (Operation.changeWeight 0 1 5 :: [])) 0) = some dc :=
  C10_theorem ((World.new (("A") :: ("B") :: [])).apply_operations
      (Operation.changeWeight 0 1 5 :: []))
    (Reachable.mutate _ _ (Reachable.base _) (fun op hop => by
      cases hop with
      | head => exact (by decide : (0 : Nat) ≠ 1)
      | tail _ h' => cases h'))
    0 (by decide)

theorem Cost.le_infinity (c : Cost) : Cost.le c Cost.infinity = true := by
  cases c <;> rfl

theorem Cost.le_value_trans (c : Cost) (a b : Nat) (h : Cost.le c (Cost.value a) = true)
    (hab : a ≤ b) : Cost.le c (Cost.value b) = true := by
  cases c with
  | zero => rfl
  | value x =>
      simp only [Cost.le, decide_eq_true_eq] at h ⊢
      omega
  | infinity => cases h

theorem cost_le_zero (v : DVValue) (h : Cost.le v.cost Cost.zero = true) :
    v = DVValue.sameNode := by
  cases v with
  | infinity => cases h
  | distance wv vi => cases h
  | sameNode => rfl

theorem cost_le_value (v : DVValue) (a : Nat) (h : Cost.le v.cost (Cost.value a) = true) :
    v = DVValue.sameNode ∨ ∃ wv vi, v = DVValue.distance wv vi ∧ wv ≤ a := by
  cases v with
  | infinity => cases h
  | distance wv vi =>
      right
      refine ⟨wv, vi, rfl, ?_⟩
      simpa [DVValue.cost, Cost.le] using h
  | sameNode => left; rfl

theorem value_le_value (a b : Nat) (h : Cost.le (Cost.value a) (Cost.value b) = true) :
    a ≤ b := by
  simpa [Cost.le] using h

theorem pickMin_le_mem (cs : List (Nat × Nat)) (mc : Nat × Nat) (hmc : mc ∈ cs) :
    Cost.le (pickMinFirst cs).cost (Cost.value mc.2) = true := by
  cases hpf : pickFirstMin cs with
  | none =>
      have hemp : cs = [] := (pickFirstMin_none cs).mp hpf
      rw [hemp] at hmc
      cases hmc
  | some r =>
      obtain ⟨_, hmin⟩ := pickFirstMin_min cs r hpf
      rw [pickMinFirst_eq, hpf]
      show Cost.le (Cost.value r.2) (Cost.value mc.2) = true
      simp [Cost.le, hmin mc hmc]

/-- Pointwise cost bound between two vector tables: same shape, and every
entry of the first costs at most the matching entry of the second. -/
def dvsCostLe (a b : List (List DVValue)) : Bool :=
  decide (a.length = b.length) &&
  (List.range a.length).all (fun i =>
    decide ((a.getD i []).length = (b.getD i []).length) &&
    (List.range (a.getD i []).length).all (fun j =>
      Cost.le ((a.getD i []).getD j DVValue.infinity).cost
        ((b.getD i []).getD j DVValue.infinity).cost))

theorem dvsCostLe_iff (a b : List (List DVValue)) :
    dvsCostLe a b = true ↔
      a.length = b.length ∧ ∀ i, i < a.length →
        ((a.getD i []).length = (b.getD i []).length
          ∧ ∀ j, j < (a.getD i []).length →
            Cost.le ((a.getD i []).getD j DVValue.infinity).cost
              ((b.getD i []).getD j DVValue.infinity).cost = true) := by
  simp only [dvsCostLe, Bool.and_eq_true, List.all_eq_true, List.mem_range,
    decide_eq_true_eq]

theorem map_dv_getD (w : World) (i : Nat) (hi : i < w.nodes.length) :
    (w.nodes.map (fun nd => nd.dv)).getD i [] = (nodeAt w i).dv := by
  rw [List.getD_eq_get?, List.get?_map, nodeAt_get? w i hi]
  rfl

theorem candOf_inv (dc : List (Nat × Nat)) (d : Nat) (q : Nat × List DVValue)
    (mc : Nat × Nat) (h : candOf dc d q = some (some mc)) :
    ∃ dw, lookupW dc q.1 = some dw ∧ mc.1 = q.1 ∧
      ((q.2.get? d = some DVValue.sameNode ∧ mc.2 = dw)
        ∨ (∃ aw via, q.2.get? d = some (DVValue.distance aw via) ∧ mc.2 = aw + dw)) := by
  unfold candOf at h
  cases hl : lookupW dc q.1 with
  | none =>
      rw [hl] at h
      cases hg : q.2.get? d with
      | none => rw [hg] at h; cases h
      | some v => rw [hg] at h; cases v <;> cases h
  | some dw =>
      rw [hl] at h
      cases hg : q.2.get? d with
      | none => rw [hg] at h; cases h
      | some v =>
          rw [hg] at h
          cases v with
          | infinity => cases h
          | distance aw via =>
              have hmc : (q.1, aw + dw) = mc := Option.some.inj (Option.some.inj h)
              exact ⟨dw, rfl, by rw [← hmc], Or.inr ⟨aw, via, rfl, by rw [← hmc]⟩⟩
          | sameNode =>
              have hmc : (q.1, dw) = mc := Option.some.inj (Option.some.inj h)
              exact ⟨dw, rfl, by rw [← hmc], Or.inl ⟨rfl, by rw [← hmc]⟩⟩

theorem candOf_build (dc : List (Nat × Nat)) (d : Nat) (q : Nat × List DVValue)
    (dw : Nat) (hl : lookupW dc q.1 = some dw) :
    (q.2.get? d = some DVValue.sameNode → candOf dc d q = some (some (q.1, dw)))
    ∧ (∀ aw via, q.2.get? d = some (DVValue.distance aw via) →
        candOf dc d q = some (some (q.1, aw + dw))) := by
  constructor
  · intro hg
    unfold candOf
    rw [hl, hg]
  · intro aw via hg
    unfold candOf
    rw [hl, hg]

/-- C6 (amended): cost monotonicity does not hold unconditionally (the
counterexample raises a cost after a weight increase), but it holds once a
round is already descending: if a round of `w` produces vectors `nds` whose
costs are pointwise at most `w`'s current vectors, then the next round, run
on the committed world, produces vectors whose costs are pointwise at most
those of `nds`. -/
theorem C6_amended (w : World) (nds nds' : List (List DVValue)) (h : WInv w)
    (h1 : roundDvs w = some nds)
    (hle : dvsCostLe nds (w.nodes.map (fun nd => nd.dv)) = true)
    (h2 : roundDvs (commitWorld w nds) = some nds') :
    dvsCostLe nds' nds = true := by
  have hW2 : WInv (commitWorld w nds) := WInv_commit w nds h h1
  have hw2rec : commitWorld w nds
      = { nodes := rebuild (baseRel w) nds w.nodes
          generation := w.generation + 1 } := rfl
  have hlen2w : (commitWorld w nds).nodes.length = w.nodes.length := by
    rw [hw2rec]
    exact rebuild_length _ _ _
  have hlen1 : nds.length = w.nodes.length := collectSome_length relaxNode w.nodes nds h1
  have hlen1' : nds'.length = w.nodes.length := by
    rw [collectSome_length relaxNode _ nds' h2, hlen2w]
  have hleP := (dvsCostLe_iff nds (w.nodes.map (fun nd => nd.dv))).mp hle
  have hrow1 : ∀ i, i < w.nodes.length → relaxNode (nodeAt w i) = some (nds.getD i []) :=
    fun i hi => (roundDvs_facts w nds h1 i hi).2
  have hrow2 : ∀ i, i < w.nodes.length →
      relaxNode (nodeAt (commitWorld w nds) i) = some (nds'.getD i []) :=
    fun i hi => (roundDvs_facts _ nds' h2 i (by rw [hlen2w]; exact hi)).2
  have hnode2 : ∀ i, i < w.nodes.length → nodeAt (commitWorld w nds) i
      = { nodeAt w i with
          dv := nds.getD i []
          inbox := (neighborsOf (baseRel w) i w.nodes.length).map
            (fun p => (p.1, nds.getD p.1 []))
          connected := neighborsOf (baseRel w) i w.nodes.length } := by
    intro i hi
    rw [hw2rec]
    exact rebuild_nodeAt (baseRel w) nds w (w.generation + 1) h.1 i hi
  rw [dvsCostLe_iff]
  refine ⟨by rw [hlen1', hlen1], ?_⟩
  intro i hi0
  have hi : i < w.nodes.length := by rw [← hlen1']; exact hi0
  have hi2 : i < (commitWorld w nds).nodes.length := by rw [hlen2w]; exact hi
  have hf1 := relaxRow_facts w h i hi _ (hrow1 i hi)
  have hf2 := relaxRow_facts (commitWorld w nds) hW2 i hi2 _ (hrow2 i hi)
  have hlenrow1 : (nds.getD i []).length = w.nodes.length := hf1.1
  have hlenrow2 : (nds'.getD i []).length = w.nodes.length := by rw [hf2.1, hlen2w]
  refine ⟨by rw [hlenrow2, hlenrow1], ?_⟩
  intro d hd0
  have hd : d < w.nodes.length := by rw [← hlenrow2]; exact hd0
  by_cases hdi : d = i
  · subst hdi
    rw [hf1.2.1, hf2.2.1]
    rfl
  · have hidx1 : (nodeAt w i).index = i := h.1 i hi
    obtain ⟨dc1, hdc1, hdv1⟩ := relaxNode_inv (nodeAt w i) _ (hrow1 i hi)
    obtain ⟨dc2, hdc2, hdv2⟩ := relaxNode_inv (nodeAt (commitWorld w nds) i) _ (hrow2 i hi)
    have hpos1 := relaxDv_get? (nodeAt w i) dc1 (nodeAt w i).dv 0 _ hdv1 d
      (by rw [h.2.1 i hi]; exact hd)
    rw [Nat.zero_add, hidx1, if_neg hdi] at hpos1
    obtain ⟨cs1, hcs1, hre1⟩ := relaxEntry_some (nodeAt w i) dc1 d
      (inbox_candOf_some w h i hi dc1 hdc1 d hd)
    have hentry1 : (nds.getD i []).getD d DVValue.infinity = pickMinFirst cs1 := by
      rw [List.getD_eq_get?, ← hpos1, hre1]
      rfl
    have hidx2 : (nodeAt (commitWorld w nds) i).index = i := hW2.1 i hi2
    have hpos2 := relaxDv_get? (nodeAt (commitWorld w nds) i) dc2
      (nodeAt (commitWorld w nds) i).dv 0 _ hdv2 d
      (by rw [hW2.2.1 i hi2, hlen2w]; exact hd)
    rw [Nat.zero_add, hidx2, if_neg hdi] at hpos2
    obtain ⟨cs2, hcs2, hre2⟩ := relaxEntry_some (nodeAt (commitWorld w nds) i) dc2 d
      (inbox_candOf_some (commitWorld w nds) hW2 i hi2 dc2 hdc2 d (by rw [hlen2w]; exact hd))
    have hentry2 : (nds'.getD i []).getD d DVValue.infinity = pickMinFirst cs2 := by
      rw [List.getD_eq_get?, ← hpos2, hre2]
      rfl
    rw [hentry1, hentry2]
    cases hpf1 : pickFirstMin cs1 with
    | none =>
        have hc1 : (pickMinFirst cs1).cost = Cost.infinity := by
          rw [pickMinFirst_eq, hpf1]
          rfl
        rw [hc1]
        exact Cost.le_infinity _
    | some r =>
        have hc1 : (pickMinFirst cs1).cost = Cost.value r.2 := by
          rw [pickMinFirst_eq, hpf1]
          rfl
        obtain ⟨q1, hq1mem, hq1c⟩ := candsOf_mem_inv dc1 d (nodeAt w i).inbox cs1 r hcs1
          (pickFirstMin_min cs1 r hpf1).1
        rw [h.2.2.2.2.2 i hi] at hq1mem
        obtain ⟨p, hp, hq1eq⟩ := List.mem_map.mp hq1mem
        obtain ⟨m, pw⟩ := p
        subst hq1eq
        have hconn4 := h.2.2.2.1 i hi (m, pw) hp
        have hm : m < w.nodes.length := hconn4.1
        obtain ⟨dw1, via1, hget1, hlook1⟩ := dc_of_conn w h i hi dc1 hdc1 (m, pw) hp
        obtain ⟨dw1', hl1', hmc1, hcase⟩ := candOf_inv dc1 d (m, (nodeAt w m).dv) r hq1c
        have hl1'' : lookupW dc1 m = some dw1' := hl1'
        have hdd : dw1' = dw1 := by
          rw [hlook1] at hl1''
          exact (Option.some.inj hl1'').symm
        subst dw1'
        have hp2 : (m, pw) ∈ (nodeAt (commitWorld w nds) i).connected := by
          rw [hnode2 i hi]
          show (m, pw) ∈ neighborsOf (baseRel w) i w.nodes.length
          rw [← h.2.2.2.2.1 i hi]
          exact hp
        obtain ⟨dw2, via2, hget2, hlook2⟩ := dc_of_conn (commitWorld w nds) hW2 i hi2 dc2 hdc2
          (m, pw) hp2
        have hdvw2 : (nodeAt (commitWorld w nds) i).dv = nds.getD i [] := by
          rw [hnode2 i hi]
        have hget2' : (nds.getD i []).get? m = some (DVValue.distance dw2 via2) := by
          rw [← hdvw2]
          exact hget2
        have hw21 : dw2 ≤ dw1 := by
          have hlei := (hleP.2 i (by rw [hlen1]; exact hi)).2 m (by rw [hlenrow1]; exact hm)
          rw [map_dv_getD w i hi] at hlei
          have e1 : (nds.getD i []).getD m DVValue.infinity = DVValue.distance dw2 via2 := by
            rw [List.getD_eq_get?, hget2']
            rfl
          have e2 : (nodeAt w i).dv.getD m DVValue.infinity = DVValue.distance dw1 via1 := by
            rw [List.getD_eq_get?, hget1]
            rfl
          rw [e1, e2] at hlei
          exact value_le_value _ _ hlei
        have hlenm : (nds.getD m []).length = w.nodes.length :=
          (relaxRow_facts w h m hm _ (hrow1 m hm)).1
        have hlem := (hleP.2 m (by rw [hlen1]; exact hm)).2 d (by rw [hlenm]; exact hd)
        rw [map_dv_getD w m hm] at hlem
        have hq2mem : (m, nds.getD m []) ∈ (nodeAt (commitWorld w nds) i).inbox := by
          rw [hnode2 i hi]
          show (m, nds.getD m []) ∈ (neighborsOf (baseRel w) i w.nodes.length).map
            (fun p => (p.1, nds.getD p.1 []))
          apply List.mem_map.mpr
          refine ⟨(m, pw), ?_, rfl⟩
          rw [← h.2.2.2.2.1 i hi]
          exact hp
        have hbuild := candOf_build dc2 d (m, nds.getD m []) dw2 hlook2
        have hfinal : ∃ c2, candOf dc2 d (m, nds.getD m []) = some (some (m, c2))
            ∧ c2 ≤ r.2 := by
          cases hcase with
          | inl hold =>
              obtain ⟨hgOld, hr2⟩ := hold
              have holdD : (nodeAt w m).dv.getD d DVValue.infinity = DVValue.sameNode := by
                rw [List.getD_eq_get?, hgOld]
                rfl
              rw [holdD] at hlem
              have hnew := cost_le_zero _ hlem
              have hgNew : (nds.getD m []).get? d = some DVValue.sameNode := by
                rw [get?_of_getD (nds.getD m []) d DVValue.infinity (by rw [hlenm]; exact hd),
                  hnew]
              exact ⟨dw2, hbuild.1 hgNew, by omega⟩
          | inr hold =>
              obtain ⟨aw, via', hgOld, hr2⟩ := hold
              have holdD : (nodeAt w m).dv.getD d DVValue.infinity
                  = DVValue.distance aw via' := by
                rw [List.getD_eq_get?, hgOld]
                rfl
              rw [holdD] at hlem
              cases cost_le_value _ aw hlem with
              | inl hnew =>
                  have hgNew : (nds.getD m []).get? d = some DVValue.sameNode := by
                    rw [get?_of_getD (nds.getD m []) d DVValue.infinity
                      (by rw [hlenm]; exact hd), hnew]
                  exact ⟨dw2, hbuild.1 hgNew, by omega⟩
              | inr hnew =>
                  obtain ⟨bw, vi, hbv, hba⟩ := hnew
                  have hgNew : (nds.getD m []).get? d = some (DVValue.distance bw vi) := by
                    rw [get?_of_getD (nds.getD m []) d DVValue.infinity
                      (by rw [hlenm]; exact hd), hbv]
                  exact ⟨bw + dw2, hbuild.2 bw vi hgNew, by omega⟩
        obtain ⟨c2, hcand2, hc2le⟩ := hfinal
        have hmem2 : (m, c2) ∈ cs2 := candsOf_mem dc2 d (nodeAt (commitWorld w nds) i).inbox
          cs2 (m, nds.getD m []) (m, c2) hcs2 hq2mem hcand2
        rw [hc1]
        exact Cost.le_value_trans _ c2 r.2 (pickMin_le_mem cs2 (m, c2) hmem2) hc2le

theorem C6_amended_witness :
    dvsCostLe
      ((DVValue.sameNode :: DVValue.distance 5 1 :: [])
        :: (DVValue.distance 5 0 :: DVValue.sameNode :: []) :: [])
      ((DVValue.sameNode :: DVValue.distance 5 1 :: [])
        :: (DVValue.distance 5 0 :: DVValue.sameNode :: []) :: []) = true :=
  C6_amended
    ((World.new (("A") :: ("B") :: [])).apply_operations
      (Operation.changeWeight 0 1 5 :: []))
    ((DVValue.sameNode :: DVValue.distance 5 1 :: [])
      :: (DVValue.distance 5 0 :: DVValue.sameNode :: []) :: [])
    ((DVValue.sameNode :: DVValue.distance 5 1 :: [])
      :: (DVValue.distance 5 0 :: DVValue.sameNode :: []) :: [])
    (by decide) (by decide) (by decide) (by decide)
